import Mathlib

/-!
# Houdini Engine for Unreal: motion-clip translation

A shallow embedding of `FHoudiniAnimationTranslator::CreateAnimationFromMotionClip`
(Source/HoudiniEngine/Private/HoudiniAnimationTranslator.cpp) and theorems about it.

Conventions of the embedding:

* Floating-point scalars are idealised as elements of an ordered field `K`, so every
  statement about numbers is a statement in exact arithmetic.
* The engine containers `TMap` and `TSet` are insertion-ordered association lists: with no
  removal (the translator never removes) the engine iterates them in insertion order, and
  `Add` on a key that is present replaces the value in place.
* An `FName` is its index in the engine name table, so equality of names is equality of
  indices. The name array is taken after the `FName(BoneString)` construction.
* `int` variables never leave the range of a 32-bit integer here; they are `Nat`, or `Int`
  where the source subtracts.
-/

namespace Houdini

/-- Engine name: its index in the global name table. -/
abbrev FName := Nat

/-! ## Engine containers -/

/-- Engine map: an insertion-ordered association list. -/
abbrev TMap (κ ν : Type) := List (κ × ν)

namespace TMap

variable {κ ν : Type} [DecidableEq κ]

/-- Lookup of a key: `TMap::Find`. -/
def Find : TMap κ ν → κ → Option ν
  | [], _ => none
  | (k', v) :: rest, k => if k' = k then some v else Find rest k

/-- Membership of a key: `TMap::Contains`. -/
def Contains (m : TMap κ ν) (k : κ) : Bool := (Find m k).isSome

/-- Insertion: `TMap::Add`. A present key keeps its place and gets the new value, a new key
goes to the end. -/
def Add : TMap κ ν → κ → ν → TMap κ ν
  | [], k, v => [(k, v)]
  | (k', v') :: rest, k, v => if k' = k then (k, v) :: rest else (k', v') :: Add rest k v

/-- Mutation through the reference that `TMap::FindOrAdd` returns: the value of `k`
(a default-constructed `d` when `k` is new) is replaced by `f` of it. -/
def FindOrAdd (m : TMap κ ν) (k : κ) (d : ν) (f : ν → ν) : TMap κ ν :=
  Add m k (f ((Find m k).getD d))

/-- The keys in iteration order: `TMap::GetKeys`. -/
def GetKeys (m : TMap κ ν) : List κ := m.map Prod.fst

/-- Number of pairs: `TMap::Num`. -/
def Num (m : TMap κ ν) : Nat := m.length

end TMap

/-- Engine set: an insertion-ordered list without repetition. -/
abbrev TSet (α : Type) := List α

/-- Insertion into a set: `TSet::Add`. -/
def TSet.Add {α : Type} [DecidableEq α] (s : TSet α) (a : α) : TSet α :=
  if a ∈ s then s else s ++ [a]

/-! ## Engine math types -/

/-- Three-component vector. -/
structure FVector (K : Type) where
  X : K
  Y : K
  Z : K
deriving DecidableEq, Repr

/-- Quaternion, components in the engine order. -/
structure FQuat (K : Type) where
  X : K
  Y : K
  Z : K
  W : K
deriving DecidableEq, Repr

/-- Transform: rotation, translation, per-axis scale. -/
structure FTransform (K : Type) where
  Rotation : FQuat K
  Translation : FVector K
  Scale3D : FVector K
deriving DecidableEq, Repr

/-- Row-major 4x4 matrix, `Mrc` standing for `M[r][c]`. -/
structure FMatrix (K : Type) where
  M00 : K
  M01 : K
  M02 : K
  M03 : K
  M10 : K
  M11 : K
  M12 : K
  M13 : K
  M20 : K
  M21 : K
  M22 : K
  M23 : K
  M30 : K
  M31 : K
  M32 : K
  M33 : K
deriving DecidableEq, Repr

section Math

variable {K : Type} [LinearOrderedField K]

/-- Componentwise product of vectors: `FVector::operator*`. -/
def FVector.mul (a b : FVector K) : FVector K := ⟨a.X * b.X, a.Y * b.Y, a.Z * b.Z⟩

/-- Sum of vectors. -/
def FVector.add (a b : FVector K) : FVector K := ⟨a.X + b.X, a.Y + b.Y, a.Z + b.Z⟩

/-- Negated vector. -/
def FVector.neg (a : FVector K) : FVector K := ⟨-a.X, -a.Y, -a.Z⟩

/-- Vector times scalar. -/
def FVector.scale (a : FVector K) (c : K) : FVector K := ⟨a.X * c, a.Y * c, a.Z * c⟩

/-- Cross product: `FVector::CrossProduct`. -/
def FVector.CrossProduct (a b : FVector K) : FVector K :=
  ⟨a.Y * b.Z - a.Z * b.Y, a.Z * b.X - a.X * b.Z, a.X * b.Y - a.Y * b.X⟩

/-- Quaternion product (Hamilton): `FQuat::operator*`. -/
def FQuat.mul (a b : FQuat K) : FQuat K :=
  ⟨a.W * b.X + a.X * b.W + a.Y * b.Z - a.Z * b.Y,
   a.W * b.Y - a.X * b.Z + a.Y * b.W + a.Z * b.X,
   a.W * b.Z + a.X * b.Y - a.Y * b.X + a.Z * b.W,
   a.W * b.W - a.X * b.X - a.Y * b.Y - a.Z * b.Z⟩

/-- Inverse of a normalised quaternion, the conjugate: `FQuat::Inverse`. -/
def FQuat.Inverse (q : FQuat K) : FQuat K := ⟨-q.X, -q.Y, -q.Z, q.W⟩

/-- Squared length of a quaternion: `FQuat::SizeSquared`. -/
def FQuat.SizeSquared (q : FQuat K) : K := q.X * q.X + q.Y * q.Y + q.Z * q.Z + q.W * q.W

/-- Identity rotation: `FQuat::Identity`. -/
def FQuat.Identity : FQuat K := ⟨0, 0, 0, 1⟩

/-- Rotation of a vector by a quaternion, `V + W * T + Q x T` with `T = 2 * (Q x V)`:
`FQuat::RotateVector`. -/
def FQuat.RotateVector (q : FQuat K) (V : FVector K) : FVector K :=
  let Q : FVector K := ⟨q.X, q.Y, q.Z⟩
  let TT : FVector K := (FVector.CrossProduct Q V).scale 2
  (V.add (TT.scale q.W)).add (FVector.CrossProduct Q TT)

/-- The engine tolerance `SMALL_NUMBER`, 1e-8. -/
def SMALL_NUMBER : K := 1 / 100000000

/-- Reciprocal of one scale component, zero when the component is within tolerance of zero. -/
def SafeReciprocal (x : K) : K := if |x| ≤ SMALL_NUMBER then 0 else 1 / x

/-- Componentwise safe reciprocal: `FTransform::GetSafeScaleReciprocal`. -/
def GetSafeScaleReciprocal (s : FVector K) : FVector K :=
  ⟨SafeReciprocal s.X, SafeReciprocal s.Y, SafeReciprocal s.Z⟩

/-- Identity transform: `FTransform::Identity`. -/
def FTransform.Identity : FTransform K := ⟨FQuat.Identity, ⟨0, 0, 0⟩, ⟨1, 1, 1⟩⟩

/-- Inverse of a transform: `FTransform::Inverse`. -/
def FTransform.Inverse (t : FTransform K) : FTransform K :=
  let InvRotation := t.Rotation.Inverse
  let InvScale3D := GetSafeScaleReciprocal t.Scale3D
  let InvTranslation := InvRotation.RotateVector (InvScale3D.mul t.Translation.neg)
  ⟨InvRotation, InvTranslation, InvScale3D⟩

/-- Test of `FTransform::Multiply` for a negative scale component on either side. -/
def AnyHasNegativeScale (a b : FVector K) : Bool :=
  decide (a.X < 0) || decide (a.Y < 0) || decide (a.Z < 0) ||
  decide (b.X < 0) || decide (b.Y < 0) || decide (b.Z < 0)

/-- Product `A * B` of transforms: `FTransform::Multiply`. With a negative scale on either
side the engine goes through matrices; that branch is the parameter `viaMatrix`. -/
def FTransform.Multiply (viaMatrix : FTransform K → FTransform K → FTransform K)
    (A B : FTransform K) : FTransform K :=
  if AnyHasNegativeScale A.Scale3D B.Scale3D then viaMatrix A B
  else
    ⟨B.Rotation.mul A.Rotation,
     (B.Rotation.RotateVector (B.Scale3D.mul A.Translation)).add B.Translation,
     A.Scale3D.mul B.Scale3D⟩

end Math

/-- The parts of the engine math library that the translator calls and that are not
rational functions of their input. -/
structure EngineMath (K : Type) where
  /-- Decomposition of a matrix into rotation, translation and scale: `FTransform(FMatrix)`. -/
  SetFromMatrix : FMatrix K → FTransform K
  /-- The constant `FQuat::MakeFromEuler({ 90.f, 0.f, 0.f })`. -/
  MakeFromEuler90 : FQuat K
  /-- The branch `MultiplyUsingMatrixWithScale` of `FTransform::Multiply`. -/
  MultiplyUsingMatrixWithScale : FTransform K → FTransform K → FTransform K

/-- Reference skeleton: the three queries the translator makes. -/
structure FReferenceSkeleton where
  /-- Index of a bone by name, `INDEX_NONE` (-1) when absent. -/
  FindBoneIndex : FName → Int
  /-- Index of the parent of a bone. -/
  GetParentIndex : Int → Int
  /-- Name of the bone at an index. -/
  GetBoneName : Int → FName

/-! ## The translator -/

section Translator

variable {K : Type} [LinearOrderedField K]

/-- The set of bone names of lines 176-181: every entry of the name array is added. -/
def BoneNames (BoneNameData : List FName) : TSet FName :=
  BoneNameData.foldl TSet.Add []

/-- The matrix `M44Pose` of lines 254-270 for point `BoneDataIndex`: the nine floats of the
point in the top-left block, the position in the bottom row. Reads are total here (zero out of
range); the range checks of the engine arrays are made by `readsInRange`. -/
def M44Pose (WorldTransformData : List K) (PositionData : List (FVector K))
    (BoneDataIndex : Nat) : FMatrix K :=
  let w := fun (k : Nat) => WorldTransformData.getD (9 * BoneDataIndex + k) 0
  let P := PositionData.getD BoneDataIndex ⟨0, 0, 0⟩
  { M00 := w 0, M01 := w 1, M02 := w 2, M03 := 0,
    M10 := w 3, M11 := w 4, M12 := w 5, M13 := 0,
    M20 := w 6, M21 := w 7, M22 := w 8, M23 := 0,
    M30 := P.X, M31 := P.Y, M32 := P.Z, M33 := 1 }

/-- The rotation `ConvertedPoseQ` of line 290, `R` being `FQuat::MakeFromEuler({90, 0, 0})`. -/
def ConvertedPoseQ (R : FQuat K) (PoseQ : FQuat K) : FQuat K :=
  (FQuat.mk PoseQ.X PoseQ.Z PoseQ.Y (-PoseQ.W)).mul R

/-- The translation `ConvertedPoseT` of line 295. -/
def ConvertedPoseT (PoseT : FVector K) : FVector K := ⟨PoseT.X, PoseT.Z, PoseT.Y⟩

/-- The host-space pose `UnrealPoseTransform` of line 297, from the generator-space pose. -/
def UnrealPoseTransform (R : FQuat K) (PoseTransform : FTransform K) : FTransform K :=
  ⟨ConvertedPoseQ R PoseTransform.Rotation,
   (ConvertedPoseT PoseTransform.Translation).scale 100,
   PoseTransform.Scale3D.scale 100⟩

/-- The pose the decode loop stores for point `BoneDataIndex` (lines 254-297). -/
def poseOfPoint (eng : EngineMath K) (WorldTransformData : List K)
    (PositionData : List (FVector K)) (BoneDataIndex : Nat) : FTransform K :=
  UnrealPoseTransform eng.MakeFromEuler90
    (eng.SetFromMatrix (M44Pose WorldTransformData PositionData BoneDataIndex))

/-- The mutable state of the decode loop (lines 235-237), and the lines it logs. -/
structure DecodeState (K : Type) where
  /-- For each frame, the pose of each bone. -/
  FrameBoneTransformMap : TMap Nat (TMap FName (FTransform K))
  FrameIndex : Nat
  BoneCounter : Nat
  /-- One entry per `UE_LOG` of line 305: frame, bone, bone counter. -/
  Log : List (Nat × FName × Nat)

/-- The state before the decode loop. -/
def DecodeState.init : DecodeState K := ⟨[], 0, 0, []⟩

/-- One iteration of the decode loop (lines 249-312) for the point `p = (index, name)`. -/
def decodeStep (BoneCount : Nat) (pose : Nat → FTransform K) (st : DecodeState K)
    (p : Nat × FName) : DecodeState K :=
  let BoneName := p.2
  let frames := TMap.FindOrAdd st.FrameBoneTransformMap st.FrameIndex []
    (fun BoneTransformMap => TMap.Add BoneTransformMap BoneName (pose p.1))
  let log := st.Log ++ [(st.FrameIndex, BoneName, st.BoneCounter)]
  let BoneCounter := st.BoneCounter + 1
  if (BoneCounter : Int) > (BoneCount : Int) - 1 then
    ⟨frames, st.FrameIndex + 1, 0, log⟩
  else
    ⟨frames, st.FrameIndex, BoneCounter, log⟩

/-- The points the decode loop visits, with their indices: `StrideSize` up to the end. -/
def loopPoints (BoneNameData : List FName) (StrideSize : Nat) : List (Nat × FName) :=
  (BoneNameData.drop StrideSize).enumFrom StrideSize

/-- The decode loop with an explicit stride (lines 247-313). -/
def decodeFrom (BoneCount : Nat) (pose : Nat → FTransform K) (BoneNameData : List FName) :
    DecodeState K :=
  (loopPoints BoneNameData BoneCount).foldl (decodeStep BoneCount pose) DecodeState.init

/-- The decode loop of lines 233-313: the stride is the size of the name set. -/
def decodeLoop (pose : Nat → FTransform K) (BoneNameData : List FName) : DecodeState K :=
  decodeFrom (BoneNames BoneNameData).length pose BoneNameData

/-- The four key maps the parent-space pass fills (lines 239-242). -/
structure BoneTracks (K : Type) where
  BoneKeyMap : TMap FName (List (FTransform K))
  BonePosMap : TMap FName (List (FVector K))
  BoneRotMap : TMap FName (List (FQuat K))
  BoneScaleMap : TMap FName (List (FVector K))

/-- The key maps before the parent-space pass. -/
def BoneTracks.init : BoneTracks K := ⟨[], [], [], []⟩

/-- The name `ParentBoneName` of lines 330-337. -/
def ParentBoneName (RefSkeleton : FReferenceSkeleton) (CurrentBoneName : FName) : FName :=
  let BoneRefIndex := RefSkeleton.FindBoneIndex CurrentBoneName
  if BoneRefIndex > 0 then
    RefSkeleton.GetBoneName (RefSkeleton.GetParentIndex BoneRefIndex)
  else CurrentBoneName

/-- The local transform `BoneLXform` of line 345. -/
def BoneLXform (eng : EngineMath K) (BoneCSXform ParentCSXform : FTransform K) :
    FTransform K :=
  FTransform.Multiply eng.MultiplyUsingMatrixWithScale BoneCSXform ParentCSXform.Inverse

/-- The body of the inner loop of the parent-space pass (lines 329-357) for one element of
the pose map of a frame. -/
def resolveElem (eng : EngineMath K) (RefSkeleton : FReferenceSkeleton)
    (BoneTransformMap : TMap FName (FTransform K)) (tr : BoneTracks K)
    (Elem : FName × FTransform K) : BoneTracks K :=
  let CurrentBoneName := Elem.1
  match TMap.Find BoneTransformMap (ParentBoneName RefSkeleton CurrentBoneName) with
  | none => tr
  | some ParentCSXform =>
    let L := BoneLXform eng Elem.2 ParentCSXform
    { BoneKeyMap := TMap.FindOrAdd tr.BoneKeyMap CurrentBoneName [] (fun a => a ++ [L]),
      BonePosMap := TMap.FindOrAdd tr.BonePosMap CurrentBoneName [] (fun a => a ++ [L.Translation]),
      BoneRotMap := TMap.FindOrAdd tr.BoneRotMap CurrentBoneName [] (fun a => a ++ [L.Rotation]),
      BoneScaleMap := TMap.FindOrAdd tr.BoneScaleMap CurrentBoneName [] (fun a => a ++ [L.Scale3D]) }

/-- The body of the outer loop of the parent-space pass (lines 326-358) for one frame. -/
def resolveFrame (eng : EngineMath K) (RefSkeleton : FReferenceSkeleton)
    (FrameBoneTransformMap : TMap Nat (TMap FName (FTransform K))) (tr : BoneTracks K)
    (Frame : Nat) : BoneTracks K :=
  match TMap.Find FrameBoneTransformMap Frame with
  | none => tr
  | some BoneTransformMap =>
    BoneTransformMap.foldl (resolveElem eng RefSkeleton BoneTransformMap) tr

/-- The parent-space pass (lines 318-359) over the keys of the frame map. -/
def resolveLoop (eng : EngineMath K) (RefSkeleton : FReferenceSkeleton)
    (FrameBoneTransformMap : TMap Nat (TMap FName (FTransform K))) : BoneTracks K :=
  (TMap.GetKeys FrameBoneTransformMap).foldl
    (resolveFrame eng RefSkeleton FrameBoneTransformMap) BoneTracks.init

/-- A call the translator makes on the asset system, the output object or the animation
controller. -/
inductive Effect (K : Type) where
  /-- `InPackageParams.CreateObjectAndPackage<UAnimSequence>()`, line 103. -/
  | CreateObjectAndPackage
  /-- `FAssetRegistryModule::AssetCreated(NewAnimation)`, line 109. -/
  | AssetCreated
  /-- `OutputObject.OutputObject = NewAnimation`, line 126; the flag tells a non-null object. -/
  | SetOutputObject (nonNull : Bool)
  /-- `NewAnimation->ResetAnimation()`, line 363. -/
  | ResetAnimation
  /-- `NewAnimation->SetSkeleton(MySkeleton)`, line 364. -/
  | SetSkeleton
  /-- `ImportFileFramerate` and `ImportResampleFramerate`, lines 365-366. -/
  | SetImportFramerate (rate : Nat)
  /-- `AnimController.InitializeModel()`, line 371. -/
  | InitializeModel
  /-- `AnimController.OpenBracket(..)`, line 373. -/
  | OpenBracket
  /-- `AnimController.SetFrameRate(FFrameRate(numerator, denominator), true)`, line 377. -/
  | SetFrameRate (numerator denominator : Nat)
  /-- `AnimController.SetNumberOfFrames(n)`, line 381. -/
  | SetNumberOfFrames (n : Int)
  /-- `AnimController.AddBoneCurve(Bone, true)`, line 391. -/
  | AddBoneCurve (Bone : FName)
  /-- `AnimController.SetBoneTrackKeys(Bone, positions, rotations, scales, true)`, line 393. -/
  | SetBoneTrackKeys (Bone : FName) (PositionalKeys : List (FVector K))
      (RotationalKeys : List (FQuat K)) (ScalingKeys : List (FVector K))
  /-- The log line of line 397. -/
  | LogMissingBone (Bone : FName)
  /-- `AnimController.NotifyPopulated()`, line 401. -/
  | NotifyPopulated
  /-- `AnimController.CloseBracket()`, line 403. -/
  | CloseBracket
deriving DecidableEq

/-- The body of the commit loop (lines 389-398) for one bone of the name set. -/
def commitBone (tr : BoneTracks K) (Bone : FName) : List (Effect K) :=
  if TMap.Contains tr.BonePosMap Bone && TMap.Contains tr.BoneRotMap Bone
      && TMap.Contains tr.BoneScaleMap Bone then
    [Effect.AddBoneCurve Bone,
     Effect.SetBoneTrackKeys Bone ((TMap.Find tr.BonePosMap Bone).getD [])
       ((TMap.Find tr.BoneRotMap Bone).getD []) ((TMap.Find tr.BoneScaleMap Bone).getD [])]
  else [Effect.LogMissingBone Bone]

/-- The commit step (lines 362-403), in a build with the data-model controller (engine 5.2 or
later): `NumKeys` is the final `FrameIndex` of the decode loop. -/
def commitTracks (BoneNameSet : TSet FName) (FrameIndex : Nat) (tr : BoneTracks K) :
    List (Effect K) :=
  let FrameRate30 : Nat := 30
  let NumKeys : Int := FrameIndex
  [Effect.ResetAnimation, Effect.SetSkeleton, Effect.SetImportFramerate FrameRate30,
   Effect.InitializeModel, Effect.OpenBracket,
   Effect.SetFrameRate FrameRate30 1, Effect.SetNumberOfFrames (NumKeys - 1)]
  ++ BoneNameSet.flatMap (commitBone tr)
  ++ [Effect.NotifyPopulated, Effect.CloseBracket]

/-- What `CreateObjectAndPackage` hands back. -/
inductive CreatedObject where
  /-- A null pointer. -/
  | null
  /-- An object for which `IsValid` is false. -/
  | invalid
  /-- A valid animation sequence. -/
  | valid
deriving DecidableEq

/-- What the generator session and the asset system answer for one part. The arrays are the
engine arrays after the fetch, so their lengths are the sizes given to `SetNum`. -/
structure MotionClipPart (K : Type) where
  /-- The object `CreateObjectAndPackage` returns. -/
  NewAnimation : CreatedObject
  /-- `HapiCheckAttributeExists(.., "unreal_skeleton")`. -/
  bSkeletonExists : Bool
  /-- The strings fetched for `unreal_skeleton`. -/
  UnrealSkeletonData : List String
  /-- The skeleton at a path when `TryLoad` gives a valid `USkeleton`. -/
  LoadSkeleton : String → Option FReferenceSkeleton
  /-- The `name` point attribute, as names. -/
  BoneNameData : List FName
  /-- The position point attribute: `PointInfo.count` vectors. -/
  PositionData : List (FVector K)
  /-- The `transform` point attribute: `count * tupleSize` floats. -/
  WorldTransformData : List K
  /-- The `localtransform` point attribute: `count * tupleSize` floats. -/
  LocalTransformData : List K

/-- How a call of the translator ends. -/
inductive Outcome where
  /-- The function returns this value. -/
  | returned (value : Bool)
  /-- An engine check fails: an array index out of range, or a null object is used. -/
  | checkFailed
deriving DecidableEq

/-- The fallback skeleton path of line 148. -/
def DefaultSkeletonPath : String :=
  "/Script/Engine.Skeleton\x27/Game/Characters/Mannequin_UE4/Meshes/SK_Mannequin_Skeleton.SK_Mannequin_Skeleton\x27"

/-- The calls of lines 123-127, `CreateNewAnimation` (lines 94-113) included. -/
def createEffects (NewAnimation : CreatedObject) : List (Effect K) :=
  match NewAnimation with
  | CreatedObject.valid =>
    [Effect.CreateObjectAndPackage, Effect.AssetCreated, Effect.SetOutputObject true]
  | _ => [Effect.CreateObjectAndPackage, Effect.SetOutputObject false]

/-- All reads of the iteration for point `i` are in range (lines 255-269): the last of the
nine floats and the position. -/
def readsInRange (WorldTransformData : List K) (PositionData : List (FVector K)) (i : Nat) :
    Bool :=
  decide (9 * i + 8 < WorldTransformData.length) && decide (i < PositionData.length)

/-- The translation of one part, `CreateAnimationFromMotionClip` (lines 117-408): how the
call ends, and the calls made up to then. -/
def CreateAnimationFromMotionClip (eng : EngineMath K) (part : MotionClipPart K) :
    Outcome × List (Effect K) :=
  if part.NewAnimation = CreatedObject.null then
    -- line 105 uses the new object before it is tested
    (Outcome.checkFailed, [Effect.CreateObjectAndPackage])
  else
  let fx : List (Effect K) := createEffects part.NewAnimation
  if part.bSkeletonExists && decide (part.UnrealSkeletonData.length ≤ 0) then
    (Outcome.returned false, fx)
  else
  let SkeletonAssetPathString :=
    if part.bSkeletonExists then part.UnrealSkeletonData.headD "" else DefaultSkeletonPath
  match part.LoadSkeleton SkeletonAssetPathString with
  | none => (Outcome.returned false, fx)
  | some MySkeleton =>
  if part.BoneNameData.length ≤ 0 then (Outcome.returned false, fx)
  else
  let BoneNameSet := BoneNames part.BoneNameData
  -- lines 194, 210, 226 take the address of element 0 of each fetched array
  if part.PositionData.length = 0 ∨ part.WorldTransformData.length = 0
      ∨ part.LocalTransformData.length = 0 then
    (Outcome.checkFailed, fx)
  else
  let BoneCount := BoneNameSet.length
  if ((List.range' BoneCount (part.BoneNameData.length - BoneCount)).all
      (readsInRange part.WorldTransformData part.PositionData)) = false then
    (Outcome.checkFailed, fx)
  else
  let st := decodeLoop (poseOfPoint eng part.WorldTransformData part.PositionData)
    part.BoneNameData
  let tr := resolveLoop eng MySkeleton st.FrameBoneTransformMap
  if part.NewAnimation = CreatedObject.invalid then
    -- line 363 calls through the null pointer `CreateNewAnimation` returned
    (Outcome.checkFailed, fx)
  else
    (Outcome.returned true, fx ++ commitTracks BoneNameSet st.FrameIndex tr)

end Translator

/-! ## Reference descriptions used by the theorems -/

section Reference

variable {K : Type} [LinearOrderedField K]

/-- The pose map of one frame, from the points of the frame in stream order. -/
def frameBlock (pose : Nat → FTransform K) (blk : List (Nat × FName)) :
    TMap FName (FTransform K) :=
  blk.foldl (fun m p => TMap.Add m p.2 (pose p.1)) []

/-- The points of frame `f` among the points `pts` the loop visits, for stride `BoneCount`. -/
def framePoints (BoneCount : Nat) (pts : List (Nat × FName)) (f : Nat) : List (Nat × FName) :=
  (pts.drop (f * BoneCount)).take BoneCount

/-- The frame map in closed form: frame `f` holds the block of points `f * BoneCount` up to
`(f + 1) * BoneCount` of the visited points, for every frame that has a point. -/
def framesOf (BoneCount : Nat) (pose : Nat → FTransform K) (pts : List (Nat × FName)) :
    TMap Nat (TMap FName (FTransform K)) :=
  (List.range ((pts.length + BoneCount - 1) / BoneCount)).map
    (fun f => (f, frameBlock pose (framePoints BoneCount pts f)))

/-- The state of the decode loop right after the iteration for point `i`: the loop run
over the visited points up to and including point `i`. -/
def decodeUpTo (pose : Nat → FTransform K) (BoneNameData : List FName) (i : Nat) :
    DecodeState K :=
  ((loopPoints BoneNameData (BoneNames BoneNameData).length).take
      (i + 1 - (BoneNames BoneNameData).length)).foldl
    (decodeStep (BoneNames BoneNameData).length pose) DecodeState.init

/-- Number of poses a frame map holds, over all frames. -/
def totalPoses (m : TMap Nat (TMap FName (FTransform K))) : Nat :=
  (m.map (fun fr => TMap.Num fr.2)).sum

/-- The local pose of bone `b` in the pose map of one frame, when both the bone and its
parent have a pose there. -/
def localPose (eng : EngineMath K) (RefSkeleton : FReferenceSkeleton)
    (BoneTransformMap : TMap FName (FTransform K)) (b : FName) : Option (FTransform K) :=
  match TMap.Find BoneTransformMap b,
      TMap.Find BoneTransformMap (ParentBoneName RefSkeleton b) with
  | some BoneCSXform, some ParentCSXform => some (BoneLXform eng BoneCSXform ParentCSXform)
  | _, _ => none

/-- The local poses of bone `b` over the frames of a frame map, in the order of the map. -/
def localTrack (eng : EngineMath K) (RefSkeleton : FReferenceSkeleton)
    (m : TMap Nat (TMap FName (FTransform K))) (b : FName) : List (FTransform K) :=
  m.filterMap (fun fr => localPose eng RefSkeleton fr.2 b)

/-- The frame indices, in the order of the frame map, of the frames in which both bone `b`
and its parent have a pose. -/
def validFrames (eng : EngineMath K) (RefSkeleton : FReferenceSkeleton)
    (m : TMap Nat (TMap FName (FTransform K))) (b : FName) : List Nat :=
  (m.filter (fun fr => (localPose eng RefSkeleton fr.2 b).isSome)).map Prod.fst

/-- The local pose of bone `b` in frame `f` of a frame map. -/
def localAt (eng : EngineMath K) (RefSkeleton : FReferenceSkeleton)
    (m : TMap Nat (TMap FName (FTransform K))) (b : FName) (f : Nat) : Option (FTransform K) :=
  (TMap.Find m f).bind (fun BoneTransformMap => localPose eng RefSkeleton BoneTransformMap b)

/-- One key appended to the array of a bone, the pattern of lines 347-357: `FindOrAdd` of the
bone, then `Add` on the array. -/
def appendKey {β : Type} (m : TMap FName (List β)) (e : FName × β) : TMap FName (List β) :=
  TMap.FindOrAdd m e.1 [] (fun a => a ++ [e.2])

/-- The keys the parent-space pass emits for one frame, in the iteration order of the pose map
of the frame: the bone and its local pose, for every bone whose parent has a pose. -/
def frameKeys (eng : EngineMath K) (RefSkeleton : FReferenceSkeleton)
    (BoneTransformMap : TMap FName (FTransform K)) : List (FName × FTransform K) :=
  BoneTransformMap.filterMap (fun Elem =>
    (TMap.Find BoneTransformMap (ParentBoneName RefSkeleton Elem.1)).map
      (fun ParentCSXform => (Elem.1, BoneLXform eng Elem.2 ParentCSXform)))

/-- The keys the parent-space pass emits over all frames, in order. -/
def allKeys (eng : EngineMath K) (RefSkeleton : FReferenceSkeleton)
    (m : TMap Nat (TMap FName (FTransform K))) : List (FName × FTransform K) :=
  m.flatMap (fun fr => frameKeys eng RefSkeleton fr.2)

/-- The four key maps after a list of emitted keys. -/
def applyKeys (tr : BoneTracks K) (evs : List (FName × FTransform K)) : BoneTracks K :=
  ⟨evs.foldl (fun m e => appendKey m (e.1, e.2)) tr.BoneKeyMap,
   evs.foldl (fun m e => appendKey m (e.1, e.2.Translation)) tr.BonePosMap,
   evs.foldl (fun m e => appendKey m (e.1, e.2.Rotation)) tr.BoneRotMap,
   evs.foldl (fun m e => appendKey m (e.1, e.2.Scale3D)) tr.BoneScaleMap⟩

/-- The values emitted for bone `b` in a list of keys. -/
def keysFor {β : Type} (b : FName) (evs : List (FName × β)) : List β :=
  evs.filterMap (fun e => if e.1 = b then some e.2 else none)

/-- The array a key map holds for a list of emitted values: no entry when nothing was
emitted. -/
def arrayOf {β : Type} (l : List β) : Option (List β) :=
  if l.isEmpty then none else some l

/-- Inverse conversion, from the host-space pose back to generator space, as the
specification words it: the translation is unswapped and divided by 100, the scale divided by
100, and the rotation is the un-remapping `(p.x, p.z, p.y, -p.w)` of `p = q * inverse(R)`. -/
def hostToGenerator (R : FQuat K) (t : FTransform K) : FTransform K :=
  let p := t.Rotation.mul R.Inverse
  ⟨⟨p.X, p.Z, p.Y, -p.W⟩,
   ⟨t.Translation.X / 100, t.Translation.Z / 100, t.Translation.Y / 100⟩,
   ⟨t.Scale3D.X / 100, t.Scale3D.Y / 100, t.Scale3D.Z / 100⟩⟩

/-- Translation by `x` along the X axis, with no rotation and unit scale. -/
def translateX (x : K) : FTransform K := ⟨FQuat.Identity, ⟨x, 0, 0⟩, ⟨1, 1, 1⟩⟩

/-- The skeleton of the two-bone scenario: bone 0 is the root (index 0), bone 1 its child
(index 1, parent index 0); any other name is absent. -/
def twoBoneSkeleton : FReferenceSkeleton :=
  ⟨fun n => if n = 0 then 0 else if n = 1 then 1 else -1,
   fun i => if i = 1 then 0 else -1,
   fun i => if i = 1 then 1 else 0⟩

/-- The frame map of the two-bone scenario: in frame 0 the root is at the identity and the
child at `translate X = 1`; in frame 1 both are at `translate X = 1`. -/
def twoBoneFrames : TMap Nat (TMap FName (FTransform K)) :=
  [(0, [(0, FTransform.Identity), (1, translateX 1)]),
   (1, [(0, translateX 1), (1, translateX 1)])]

/-- The world poses of the two-bone scenario by point index, for the name array
`[root, child, root, child, root, child]`: point 2 (the root in frame 0) is at the identity,
the other points at `translate X = 1`. -/
def twoBonePose (i : Nat) : FTransform K :=
  if i = 2 then FTransform.Identity else translateX 1

/-- An engine math record over the rationals, for evaluating the translator on concrete
input. The decomposition is the one of a matrix whose upper block is the identity; the
rotation constant is a rational stand-in for the irrational engine constant; the matrix
branch of the product is never reached with positive scales. -/
def sampleEngine : EngineMath ℚ :=
  ⟨fun M => ⟨FQuat.Identity, ⟨M.M30, M.M31, M.M32⟩, ⟨1, 1, 1⟩⟩,
   ⟨-3 / 5, 0, 0, 4 / 5⟩,
   fun A _ => A⟩

/-- A part whose `unreal_skeleton` attribute exists with no string in it; the creation call
gives a valid object. -/
def emptySkeletonOverridePart : MotionClipPart ℚ :=
  { NewAnimation := CreatedObject.valid,
    bSkeletonExists := true,
    UnrealSkeletonData := [],
    LoadSkeleton := fun _ => some twoBoneSkeleton,
    BoneNameData := [0, 1, 0, 1],
    PositionData := List.replicate 4 ⟨0, 0, 0⟩,
    WorldTransformData := List.replicate 36 0,
    LocalTransformData := List.replicate 36 0 }

/-- A part with one point named `root` and a position, and no `transform` attribute: the
fetched transform array is empty. The skeleton loads. -/
def missingTransformPart : MotionClipPart ℚ :=
  { NewAnimation := CreatedObject.valid,
    bSkeletonExists := false,
    UnrealSkeletonData := [],
    LoadSkeleton := fun _ => some twoBoneSkeleton,
    BoneNameData := [0],
    PositionData := [⟨0, 0, 0⟩],
    WorldTransformData := [],
    LocalTransformData := [] }

/-- A well-formed part: two bones, the leading block and one frame, every buffer of the
size of the point count. -/
def twoBonePart : MotionClipPart ℚ :=
  { NewAnimation := CreatedObject.valid,
    bSkeletonExists := false,
    UnrealSkeletonData := [],
    LoadSkeleton := fun _ => some twoBoneSkeleton,
    BoneNameData := [0, 1, 0, 1],
    PositionData := List.replicate 4 ⟨0, 0, 0⟩,
    WorldTransformData := List.replicate 36 0,
    LocalTransformData := List.replicate 36 0 }

end Reference

/-! ## Detection of an animation part -/

/-- Owner class of an attribute: `HAPI_AttributeOwner`. -/
inductive HAPI_AttributeOwner where
  | HAPI_ATTROWNER_VERTEX
  | HAPI_ATTROWNER_POINT
  | HAPI_ATTROWNER_PRIM
  | HAPI_ATTROWNER_DETAIL
deriving DecidableEq

/-- The fields of `HAPI_AttributeInfo` the translator looks at; `exists_` is the field
`exists`. -/
structure HAPI_AttributeInfo where
  exists_ : Bool
  count : Nat
  tupleSize : Nat
deriving DecidableEq

/-- A query made on the generator session. -/
inductive SessionCall where
  /-- `FHoudiniApi::GetAttributeInfo` for a named attribute of an owner class. -/
  | GetAttributeInfo (GeoId PartId : Int) (name : String) (owner : HAPI_AttributeOwner)
  /-- `FHoudiniApi::GetAttributeFloatData`, a read of attribute data. -/
  | GetAttributeFloatData (GeoId PartId : Int) (name : String)
  /-- `FHoudiniApi::GetAttributeFloatArrayData`, a read of attribute data. -/
  | GetAttributeFloatArrayData (GeoId PartId : Int) (name : String)
  /-- `FHoudiniEngineUtils::HapiGetAttributeDataAsString`, a read of attribute data. -/
  | HapiGetAttributeDataAsString (GeoId PartId : Int) (name : String)
deriving DecidableEq

/-- The generator session, as far as `IsAnimationPart` asks it: the attribute info a
`GetAttributeInfo` call leaves in its out-parameter, which `AttributeInfo_Init` had reset. -/
structure HapiSession where
  GetAttributeInfo : Int → Int → String → HAPI_AttributeOwner → HAPI_AttributeInfo

/-- The probe `FHoudiniAnimationTranslator::IsAnimationPart` (lines 48-77): the value it
returns, and the queries it makes on the session, in order. -/
def IsAnimationPart (session : HapiSession) (GeoId PartId : Int) : Bool × List SessionCall :=
  let TransformInfo := session.GetAttributeInfo GeoId PartId "transform"
    HAPI_AttributeOwner.HAPI_ATTROWNER_POINT
  let LocalTransformInfo := session.GetAttributeInfo GeoId PartId "localtransform"
    HAPI_AttributeOwner.HAPI_ATTROWNER_POINT
  let TimeInfo := session.GetAttributeInfo GeoId PartId "time"
    HAPI_AttributeOwner.HAPI_ATTROWNER_PRIM
  (TransformInfo.exists_ && LocalTransformInfo.exists_ && TimeInfo.exists_,
   [SessionCall.GetAttributeInfo GeoId PartId "transform"
      HAPI_AttributeOwner.HAPI_ATTROWNER_POINT,
    SessionCall.GetAttributeInfo GeoId PartId "localtransform"
      HAPI_AttributeOwner.HAPI_ATTROWNER_POINT,
    SessionCall.GetAttributeInfo GeoId PartId "time"
      HAPI_AttributeOwner.HAPI_ATTROWNER_PRIM])

/-- A session in which exactly the listed (name, owner) pairs exist, on every part. -/
def sessionWith (attrs : List (String × HAPI_AttributeOwner)) : HapiSession :=
  ⟨fun _ _ name owner => ⟨decide ((name, owner) ∈ attrs), 0, 0⟩⟩

/-! ## Reference descriptions of the decode counters -/

section CounterReference

variable {K : Type}

/-- The state of the decode loop after its first `j` iterations. -/
def decodePrefix (pose : Nat → FTransform K) (BoneNameData : List FName) (j : Nat) :
    DecodeState K :=
  ((loopPoints BoneNameData (BoneNames BoneNameData).length).take j).foldl
    (decodeStep (BoneNames BoneNameData).length pose) DecodeState.init

/-- The arithmetic row-major assignment, as the specification words it: point `i` goes to
frame `(i - BoneCount) / BoneCount` and bone slot `(i - BoneCount) mod BoneCount`. -/
def rowMajor (BoneCount i : Nat) : Nat × Nat :=
  ((i - BoneCount) / BoneCount, (i - BoneCount) % BoneCount)

end CounterReference

/-! ## The node path dialog -/

/-- A node of the hierarchy the dialog shows, `FHoudiniNodeInfo`, with the fields the path
builder reads. A child is held through a shared pointer, which may be invalid (`none`). -/
inductive FHoudiniNodeInfo where
  | mk (bImportNode : Bool) (NodeHierarchyPath : String)
      (Childrens : List (Option FHoudiniNodeInfo))

/-- Shared pointer to a node, `FHoudiniNodeInfoPtr`: `none` is a pointer that is not valid. -/
abbrev FHoudiniNodeInfoPtr := Option FHoudiniNodeInfo

mutual
/-- The path builder `SSelectHoudiniPathDialog::UpdateNodePathFromTreeView` (lines 346-368):
the value of `OutPath` after the call. -/
def UpdateNodePathFromTreeView : FHoudiniNodeInfoPtr → String → String
  | none, OutPath => OutPath
  | some (FHoudiniNodeInfo.mk bImportNode NodeHierarchyPath Childrens), OutPath =>
    if bImportNode then
      (if !OutPath.isEmpty then OutPath ++ ";" else OutPath) ++ NodeHierarchyPath
    else
      updateNodePaths Childrens OutPath
/-- The loop over an array of node pointers that calls the path builder on each, in order
(lines 363-366 for the children of a node, lines 381-384 for the root nodes). -/
def updateNodePaths : List FHoudiniNodeInfoPtr → String → String
  | [], OutPath => OutPath
  | CurrentNodeInfoPtr :: rest, OutPath =>
    updateNodePaths rest (UpdateNodePathFromTreeView CurrentNodeInfoPtr OutPath)
end

/-- The button identifiers of the engine, `EAppReturnType::Type`. -/
inductive EAppReturnType where
  | No
  | Yes
  | YesAll
  | NoAll
  | Cancel
  | Ok
  | Retry
  | Continue
deriving DecidableEq

/-- The members of `SSelectHoudiniPathDialog` that `OnButtonClick` reads or writes.
`FolderPath` is the string of the text; `RootNodesInfos` is `NetworkInfo.RootNodesInfos`;
`bDestroyRequested` records the call of `RequestDestroyWindow`. -/
structure SSelectHoudiniPathDialog where
  UserResponse : EAppReturnType
  FolderPath : String
  RootNodesInfos : List FHoudiniNodeInfoPtr
  bDestroyRequested : Bool

/-- The handler `SSelectHoudiniPathDialog::OnButtonClick` (lines 372-391): the dialog after
the click. -/
def OnButtonClick (dlg : SSelectHoudiniPathDialog) (ButtonID : EAppReturnType) :
    SSelectHoudiniPathDialog :=
  let NewPath : String := ""
  if ButtonID = EAppReturnType.Ok then
    { UserResponse := ButtonID,
      FolderPath := updateNodePaths dlg.RootNodesInfos NewPath,
      RootNodesInfos := dlg.RootNodesInfos,
      bDestroyRequested := true }
  else
    { UserResponse := ButtonID,
      FolderPath := dlg.FolderPath,
      RootNodesInfos := dlg.RootNodesInfos,
      bDestroyRequested := true }

/-! ### Reference description of the folder path -/

mutual
/-- The nodes under a pointer in depth-first pre-order, each with: whether an ancestor is
flagged (`anc` for the node itself), its `bImportNode` flag and its path. -/
def preorderFlags : Bool → FHoudiniNodeInfoPtr → List (Bool × Bool × String)
  | _, none => []
  | anc, some (FHoudiniNodeInfo.mk bImportNode NodeHierarchyPath Childrens) =>
    (anc, bImportNode, NodeHierarchyPath) :: preorderFlagsList (anc || bImportNode) Childrens
/-- The nodes of a forest in depth-first pre-order, with the same three values. -/
def preorderFlagsList : Bool → List FHoudiniNodeInfoPtr → List (Bool × Bool × String)
  | _, [] => []
  | anc, p :: rest => preorderFlags anc p ++ preorderFlagsList anc rest
end

/-- The paths, in depth-first pre-order over the forest, of the nodes that are flagged
`bImportNode` and have no flagged ancestor. -/
def listedPaths (roots : List FHoudiniNodeInfoPtr) : List String :=
  ((preorderFlagsList false roots).filter (fun x => x.2.1 && !x.1)).map (fun x => x.2.2)

mutual
/-- The paths the path builder appends for a node, in order: the path of the node when it
is flagged, those of its children otherwise. -/
def importedPaths : FHoudiniNodeInfoPtr → List String
  | none => []
  | some (FHoudiniNodeInfo.mk bImportNode NodeHierarchyPath Childrens) =>
    if bImportNode then [NodeHierarchyPath] else importedPathsList Childrens
/-- The paths the path builder appends over an array of node pointers. -/
def importedPathsList : List FHoudiniNodeInfoPtr → List String
  | [] => []
  | p :: rest => importedPaths p ++ importedPathsList rest
end

/-- One append of the path builder (lines 354-358): the separator when `OutPath` is not
empty, then the path. -/
def appendPath (OutPath path : String) : String :=
  (if !OutPath.isEmpty then OutPath ++ ";" else OutPath) ++ path

/-- A small forest: an unflagged root with a flagged child, an invalid pointer and a flagged
child that has a flagged child of its own; then a flagged root. -/
def sampleForest : List FHoudiniNodeInfoPtr :=
  [some (FHoudiniNodeInfo.mk false "/obj/a"
      [some (FHoudiniNodeInfo.mk true "/obj/a/b" []),
       none,
       some (FHoudiniNodeInfo.mk true "/obj/a/c"
         [some (FHoudiniNodeInfo.mk true "/obj/a/c/d" [])])]),
   some (FHoudiniNodeInfo.mk true "/obj/e" [])]

/-! ## Facts about the containers -/

namespace TMap

variable {κ ν : Type} [DecidableEq κ]

theorem find_eq_none_of_not_mem (m : TMap κ ν) (k : κ) (h : k ∉ GetKeys m) :
    Find m k = none := by
  induction m with
  | nil => rfl
  | cons e rest ih =>
    obtain ⟨k', v⟩ := e
    simp only [GetKeys, List.map_cons, List.mem_cons, not_or] at h
    have hne : k' ≠ k := fun hk => h.1 hk.symm
    simp only [Find, hne, if_false]
    exact ih h.2

theorem find_isSome_iff (m : TMap κ ν) (k : κ) : (Find m k).isSome ↔ k ∈ GetKeys m := by
  induction m with
  | nil => simp [Find, GetKeys]
  | cons e rest ih =>
    obtain ⟨k', v⟩ := e
    by_cases hk : k' = k
    · simp [Find, GetKeys, hk]
    · have hk2 : ¬ k = k' := fun h => hk h.symm
      simp only [Find, hk, if_false, GetKeys, List.map_cons, List.mem_cons, hk2, false_or]
      exact ih

theorem contains_iff (m : TMap κ ν) (k : κ) : Contains m k = true ↔ k ∈ GetKeys m :=
  find_isSome_iff m k

theorem add_of_not_mem (m : TMap κ ν) (k : κ) (v : ν) (h : k ∉ GetKeys m) :
    Add m k v = m ++ [(k, v)] := by
  induction m with
  | nil => rfl
  | cons e rest ih =>
    obtain ⟨k', v'⟩ := e
    simp only [GetKeys, List.map_cons, List.mem_cons, not_or] at h
    have hne : k' ≠ k := fun hk => h.1 hk.symm
    simp only [Add, hne, if_false, List.cons_append]
    rw [ih h.2]

theorem find_append_last (m : TMap κ ν) (k : κ) (v : ν) (h : k ∉ GetKeys m) :
    Find (m ++ [(k, v)]) k = some v := by
  induction m with
  | nil => simp [Find]
  | cons e rest ih =>
    obtain ⟨k', v'⟩ := e
    simp only [GetKeys, List.map_cons, List.mem_cons, not_or] at h
    have hne : k' ≠ k := fun hk => h.1 hk.symm
    simp only [List.cons_append, Find, hne, if_false]
    exact ih h.2

theorem add_append_last (m : TMap κ ν) (k : κ) (v w : ν) (h : k ∉ GetKeys m) :
    Add (m ++ [(k, v)]) k w = m ++ [(k, w)] := by
  induction m with
  | nil => simp [Add]
  | cons e rest ih =>
    obtain ⟨k', v'⟩ := e
    simp only [GetKeys, List.map_cons, List.mem_cons, not_or] at h
    have hne : k' ≠ k := fun hk => h.1 hk.symm
    have ih2 := ih h.2
    simp only [List.cons_append, Add, hne, if_false]
    exact congrArg _ ih2

theorem find_add_self (m : TMap κ ν) (k : κ) (v : ν) : Find (Add m k v) k = some v := by
  induction m with
  | nil => simp [Add, Find]
  | cons e rest ih =>
    obtain ⟨k', v'⟩ := e
    by_cases hk : k' = k
    · simp [Add, Find, hk]
    · simp [Add, Find, hk, ih]

theorem find_add_of_ne (m : TMap κ ν) (k k2 : κ) (v : ν) (h : k ≠ k2) :
    Find (Add m k v) k2 = Find m k2 := by
  induction m with
  | nil => simp [Add, Find, h]
  | cons e rest ih =>
    obtain ⟨k', v'⟩ := e
    by_cases hk : k' = k
    · subst hk
      simp [Add, Find, h]
    · by_cases hk2 : k' = k2
      · subst hk2
        simp [Add, Find, hk]
      · simp [Add, Find, hk, hk2, ih]

theorem getKeys_add (m : TMap κ ν) (k : κ) (v : ν) :
    GetKeys (Add m k v) = if k ∈ GetKeys m then GetKeys m else GetKeys m ++ [k] := by
  induction m with
  | nil => simp [Add, GetKeys]
  | cons e rest ih =>
    obtain ⟨k', v'⟩ := e
    by_cases hk : k' = k
    · subst hk
      simp [Add, GetKeys]
    · have hk2 : ¬ k = k' := fun h => hk h.symm
      simp only [GetKeys] at ih
      simp only [Add, hk, if_false, GetKeys, List.map_cons, List.mem_cons, hk2, false_or, ih]
      split <;> simp

theorem nodup_getKeys_add (m : TMap κ ν) (k : κ) (v : ν) (h : (GetKeys m).Nodup) :
    (GetKeys (Add m k v)).Nodup := by
  rw [getKeys_add]
  split
  · exact h
  · rename_i hk
    exact List.Nodup.append h (List.nodup_singleton k) (by simpa using hk)

end TMap

/-! ## The decode loop in closed form -/

section DecodeFacts

variable {K : Type}

theorem succ_div_mod_of_lt (n b : Nat) (hb : 0 < b) (h : n % b + 1 < b) :
    (n + 1) / b = n / b ∧ (n + 1) % b = n % b + 1 := by
  have := Nat.div_add_mod n b
  exact (Nat.div_mod_unique hb).mpr ⟨by linarith, h⟩

theorem succ_div_mod_of_eq (n b : Nat) (hb : 0 < b) (h : n % b + 1 = b) :
    (n + 1) / b = n / b + 1 ∧ (n + 1) % b = 0 := by
  have := Nat.div_add_mod n b
  refine (Nat.div_mod_unique hb).mpr ⟨?_, hb⟩
  rw [Nat.mul_add, Nat.mul_one]
  omega

theorem ceil_div_eq (n b : Nat) (hb : 0 < b) :
    (n + b - 1) / b = if n % b = 0 then n / b else n / b + 1 := by
  have := Nat.div_add_mod n b
  have hlt := Nat.mod_lt n hb
  split
  · rename_i h0
    exact ((Nat.div_mod_unique (c := b - 1) hb).mpr ⟨by omega, by omega⟩).1
  · rename_i h0
    refine ((Nat.div_mod_unique (c := n % b - 1) hb).mpr ⟨?_, by omega⟩).1
    rw [Nat.mul_add, Nat.mul_one]
    omega

theorem ceil_div_succ (n b : Nat) (hb : 0 < b) : (n + 1 + b - 1) / b = n / b + 1 := by
  have h : n + 1 + b - 1 = n + b := by omega
  rw [h, Nat.add_div_right n hb]

theorem frameBlock_snoc (pose : Nat → FTransform K) (blk : List (Nat × FName))
    (p : Nat × FName) :
    frameBlock pose (blk ++ [p]) = TMap.Add (frameBlock pose blk) p.2 (pose p.1) := by
  simp [frameBlock, List.foldl_append]

theorem getKeys_range_map {ν : Type} (n : Nat) (g : Nat → ν) :
    TMap.GetKeys ((List.range n).map (fun f => (f, g f))) = List.range n := by
  simp [TMap.GetKeys, List.map_map, Function.comp_def]

theorem getKeys_framesOf (BoneCount : Nat) (pose : Nat → FTransform K)
    (pts : List (Nat × FName)) :
    TMap.GetKeys (framesOf BoneCount pose pts)
      = List.range ((pts.length + BoneCount - 1) / BoneCount) :=
  getKeys_range_map _ _

theorem framePoints_snoc_of_lt (BoneCount : Nat) (pts : List (Nat × FName)) (p : Nat × FName)
    (f : Nat) (hf : f < pts.length / BoneCount) :
    framePoints BoneCount (pts ++ [p]) f = framePoints BoneCount pts f := by
  have h1 : (f + 1) * BoneCount ≤ pts.length / BoneCount * BoneCount :=
    Nat.mul_le_mul_right _ hf
  have h2 : pts.length / BoneCount * BoneCount ≤ pts.length := Nat.div_mul_le_self _ _
  have h3 : f * BoneCount + BoneCount ≤ pts.length := by
    rw [Nat.add_mul, Nat.one_mul] at h1
    omega
  unfold framePoints
  rw [List.drop_append_of_le_length (by omega), List.take_append_of_le_length]
  rw [List.length_drop]
  omega

theorem framePoints_snoc_last (BoneCount : Nat) (hb : 0 < BoneCount)
    (pts : List (Nat × FName)) (p : Nat × FName) :
    framePoints BoneCount (pts ++ [p]) (pts.length / BoneCount)
      = pts.drop (pts.length / BoneCount * BoneCount) ++ [p] := by
  have h2 : pts.length / BoneCount * BoneCount ≤ pts.length := Nat.div_mul_le_self _ _
  have h4 := Nat.div_add_mod pts.length BoneCount
  have h5 := Nat.mod_lt pts.length hb
  rw [Nat.mul_comm] at h4
  unfold framePoints
  rw [List.drop_append_of_le_length h2, List.take_of_length_le]
  rw [List.length_append, List.length_drop, List.length_singleton]
  omega

theorem framePoints_last (BoneCount : Nat) (hb : 0 < BoneCount) (pts : List (Nat × FName)) :
    framePoints BoneCount pts (pts.length / BoneCount)
      = pts.drop (pts.length / BoneCount * BoneCount) := by
  have h4 := Nat.div_add_mod pts.length BoneCount
  have h5 := Nat.mod_lt pts.length hb
  rw [Nat.mul_comm] at h4
  unfold framePoints
  rw [List.take_of_length_le]
  rw [List.length_drop]
  omega

theorem framesOf_snoc (BoneCount : Nat) (hb : 0 < BoneCount) (pose : Nat → FTransform K)
    (pts : List (Nat × FName)) (p : Nat × FName) :
    framesOf BoneCount pose (pts ++ [p])
      = TMap.FindOrAdd (framesOf BoneCount pose pts) (pts.length / BoneCount) []
          (fun m => TMap.Add m p.2 (pose p.1)) := by
  have hpre : (List.range (pts.length / BoneCount)).map
        (fun f => (f, frameBlock pose (framePoints BoneCount (pts ++ [p]) f)))
      = (List.range (pts.length / BoneCount)).map
        (fun f => (f, frameBlock pose (framePoints BoneCount pts f))) := by
    apply List.map_congr_left
    intro f hf
    rw [framePoints_snoc_of_lt BoneCount pts p f (List.mem_range.mp hf)]
  have hnew : framesOf BoneCount pose (pts ++ [p])
      = (List.range (pts.length / BoneCount)).map
          (fun f => (f, frameBlock pose (framePoints BoneCount pts f)))
        ++ [(pts.length / BoneCount,
            TMap.Add (frameBlock pose (pts.drop (pts.length / BoneCount * BoneCount)))
              p.2 (pose p.1))] := by
    unfold framesOf
    rw [List.length_append, List.length_singleton, ceil_div_succ _ _ hb, List.range_succ,
      List.map_append, hpre, List.map_singleton, framePoints_snoc_last BoneCount hb,
      frameBlock_snoc]
  have hkeys : pts.length / BoneCount ∉ TMap.GetKeys ((List.range (pts.length / BoneCount)).map
      (fun f => (f, frameBlock pose (framePoints BoneCount pts f)))) := by
    rw [getKeys_range_map]
    simp
  rw [hnew]
  unfold TMap.FindOrAdd
  by_cases hr : pts.length % BoneCount = 0
  · have hold : framesOf BoneCount pose pts = (List.range (pts.length / BoneCount)).map
        (fun f => (f, frameBlock pose (framePoints BoneCount pts f))) := by
      unfold framesOf
      rw [ceil_div_eq _ _ hb, if_pos hr]
    have hdrop : pts.drop (pts.length / BoneCount * BoneCount) = [] := by
      apply List.drop_eq_nil_of_le
      have h4 := Nat.div_add_mod pts.length BoneCount
      rw [Nat.mul_comm] at h4
      omega
    rw [hold, TMap.find_eq_none_of_not_mem _ _ hkeys, TMap.add_of_not_mem _ _ _ hkeys, hdrop]
    rfl
  · have hold : framesOf BoneCount pose pts = (List.range (pts.length / BoneCount)).map
        (fun f => (f, frameBlock pose (framePoints BoneCount pts f)))
        ++ [(pts.length / BoneCount,
            frameBlock pose (pts.drop (pts.length / BoneCount * BoneCount)))] := by
      unfold framesOf
      rw [ceil_div_eq _ _ hb, if_neg hr, List.range_succ, List.map_append, List.map_singleton,
        framePoints_last BoneCount hb]
    rw [hold, TMap.find_append_last _ _ _ hkeys, TMap.add_append_last _ _ _ _ hkeys]
    rfl

/-- The state of the decode loop after the points `pts`, in closed form. -/
theorem decode_foldl_eq (BoneCount : Nat) (hb : 0 < BoneCount) (pose : Nat → FTransform K)
    (pts : List (Nat × FName)) :
    pts.foldl (decodeStep BoneCount pose) DecodeState.init
      = ⟨framesOf BoneCount pose pts, pts.length / BoneCount, pts.length % BoneCount,
          pts.enum.map (fun jp => (jp.1 / BoneCount, jp.2.2, jp.1 % BoneCount))⟩ := by
  induction pts using List.reverseRecOn with
  | nil =>
    simp [DecodeState.init, framesOf, Nat.div_eq_of_lt (show BoneCount - 1 < BoneCount by omega)]
  | append_singleton pts p ih =>
    rw [List.foldl_append, ih]
    simp only [List.foldl_cons, List.foldl_nil, decodeStep]
    have hlog : (pts ++ [p]).enum.map (fun jp => (jp.1 / BoneCount, jp.2.2, jp.1 % BoneCount))
        = pts.enum.map (fun jp => (jp.1 / BoneCount, jp.2.2, jp.1 % BoneCount))
          ++ [(pts.length / BoneCount, p.2, pts.length % BoneCount)] := by
      simp [List.enum_append, List.enumFrom_cons]
    rw [hlog, framesOf_snoc BoneCount hb, List.length_append, List.length_singleton]
    have hlt := Nat.mod_lt pts.length hb
    by_cases hwrap : pts.length % BoneCount + 1 = BoneCount
    · obtain ⟨hd, hm⟩ := succ_div_mod_of_eq _ _ hb hwrap
      rw [hd, hm]
      split
      · rfl
      · rename_i hc
        omega
    · obtain ⟨hd, hm⟩ := succ_div_mod_of_lt pts.length BoneCount hb (by omega)
      rw [hd, hm]
      split
      · rename_i hc
        omega
      · rfl

end DecodeFacts

/-! ## The name set, the visited points and the size of the frame map -/

section NameSet

theorem mem_foldl_tsetAdd (names acc : List FName) (b : FName) :
    b ∈ names.foldl TSet.Add acc ↔ b ∈ acc ∨ b ∈ names := by
  induction names generalizing acc with
  | nil => simp
  | cons a rest ih =>
    rw [List.foldl_cons, ih]
    unfold TSet.Add
    by_cases ha : a ∈ acc
    · rw [if_pos ha]
      constructor
      · rintro (h | h)
        · exact Or.inl h
        · exact Or.inr (List.mem_cons_of_mem _ h)
      · rintro (h | h)
        · exact Or.inl h
        · rcases List.mem_cons.mp h with h | h
          · exact Or.inl (h ▸ ha)
          · exact Or.inr h
    · rw [if_neg ha]
      simp only [List.mem_append, List.mem_singleton, List.mem_cons]
      tauto

theorem nodup_foldl_tsetAdd (names acc : List FName) (h : acc.Nodup) :
    (names.foldl TSet.Add acc).Nodup := by
  induction names generalizing acc with
  | nil => simpa using h
  | cons a rest ih =>
    rw [List.foldl_cons]
    apply ih
    unfold TSet.Add
    by_cases ha : a ∈ acc
    · rw [if_pos ha]
      exact h
    · rw [if_neg ha]
      exact List.Nodup.append h (List.nodup_singleton a) (by simpa using ha)

theorem length_foldl_tsetAdd (names acc : List FName) :
    acc.length ≤ (names.foldl TSet.Add acc).length
      ∧ (names.foldl TSet.Add acc).length ≤ acc.length + names.length := by
  induction names generalizing acc with
  | nil => simp
  | cons a rest ih =>
    rw [List.foldl_cons]
    have h := ih (TSet.Add acc a)
    have hlen : acc.length ≤ (TSet.Add acc a).length ∧ (TSet.Add acc a).length ≤ acc.length + 1 := by
      unfold TSet.Add
      split <;> simp
    simp only [List.length_cons]
    omega

theorem mem_boneNames (names : List FName) (b : FName) : b ∈ BoneNames names ↔ b ∈ names := by
  simp [BoneNames, mem_foldl_tsetAdd]

theorem nodup_boneNames (names : List FName) : (BoneNames names).Nodup :=
  nodup_foldl_tsetAdd names [] List.nodup_nil

theorem boneNames_length_le (names : List FName) : (BoneNames names).length ≤ names.length := by
  have := (length_foldl_tsetAdd names []).2
  simpa [BoneNames] using this

theorem boneNames_length_pos (names : List FName) (h : names ≠ []) :
    0 < (BoneNames names).length := by
  cases names with
  | nil => exact absurd rfl h
  | cons a rest =>
    have := (length_foldl_tsetAdd rest (TSet.Add [] a)).1
    simp only [BoneNames, List.foldl_cons]
    have h1 : (TSet.Add ([] : List FName) a).length = 1 := by simp [TSet.Add]
    omega

theorem length_loopPoints (names : List FName) (s : Nat) :
    (loopPoints names s).length = names.length - s := by
  simp [loopPoints, List.enumFrom_length]

theorem loopPoints_getElem? (names : List FName) (s j : Nat) :
    (loopPoints names s)[j]? = (names[s + j]?).map (fun a => (s + j, a)) := by
  simp [loopPoints, List.getElem?_enumFrom, List.getElem?_drop]

theorem framePoints_names (names : List FName) (s f : Nat) :
    (framePoints s (loopPoints names s) f).map Prod.snd
      = (names.drop (s + f * s)).take s := by
  simp [framePoints, loopPoints, List.map_take, List.map_drop, List.enumFrom_map_snd,
    List.drop_drop]

end NameSet

section FrameSizes

variable {K : Type}

theorem length_add_le {κ ν : Type} [DecidableEq κ] (m : TMap κ ν) (k : κ) (v : ν) :
    (TMap.Add m k v).length = if k ∈ TMap.GetKeys m then m.length else m.length + 1 := by
  have h := congrArg List.length (TMap.getKeys_add m k v)
  by_cases hk : k ∈ TMap.GetKeys m
  · rw [if_pos hk] at h ⊢
    simpa [TMap.GetKeys] using h
  · rw [if_neg hk] at h ⊢
    simpa [TMap.GetKeys] using h

theorem mem_getKeys_frameBlock (pose : Nat → FTransform K) (blk : List (Nat × FName))
    (b : FName) : b ∈ TMap.GetKeys (frameBlock pose blk) ↔ b ∈ blk.map Prod.snd := by
  induction blk using List.reverseRecOn generalizing b with
  | nil => simp [frameBlock, TMap.GetKeys]
  | append_singleton blk p ih =>
    rw [frameBlock_snoc, TMap.getKeys_add]
    split
    · rename_i hp
      rw [ih] at hp
      rw [ih]
      simp only [List.map_append, List.mem_append, List.map_cons, List.map_nil,
        List.mem_singleton]
      constructor
      · exact Or.inl
      · rintro (h | h)
        · exact h
        · exact h ▸ hp
    · simp only [List.mem_append, List.mem_singleton, List.map_append, List.map_cons,
        List.map_nil, ih]

theorem nodup_getKeys_frameBlock (pose : Nat → FTransform K) (blk : List (Nat × FName)) :
    (TMap.GetKeys (frameBlock pose blk)).Nodup := by
  induction blk using List.reverseRecOn with
  | nil => simp [frameBlock, TMap.GetKeys]
  | append_singleton blk p ih =>
    rw [frameBlock_snoc]
    exact TMap.nodup_getKeys_add _ _ _ ih

theorem length_frameBlock_le (pose : Nat → FTransform K) (blk : List (Nat × FName)) :
    (frameBlock pose blk).length ≤ blk.length := by
  induction blk using List.reverseRecOn with
  | nil => simp [frameBlock]
  | append_singleton blk p ih =>
    rw [frameBlock_snoc, length_add_le, List.length_append, List.length_singleton]
    split <;> omega

theorem length_frameBlock_of_nodup (pose : Nat → FTransform K) (blk : List (Nat × FName))
    (h : (blk.map Prod.snd).Nodup) : (frameBlock pose blk).length = blk.length := by
  induction blk using List.reverseRecOn with
  | nil => simp [frameBlock]
  | append_singleton blk p ih =>
    rw [List.map_append, List.nodup_append] at h
    obtain ⟨h1, _, h3⟩ := h
    have hp : p.2 ∉ TMap.GetKeys (frameBlock pose blk) := by
      rw [mem_getKeys_frameBlock]
      intro hmem
      exact h3 hmem (by simp)
    rw [frameBlock_snoc, length_add_le, if_neg hp, ih h1, List.length_append,
      List.length_singleton]

theorem sum_length_framePoints (s : Nat) (pts : List (Nat × FName)) (F : Nat) :
    ((List.range F).map (fun f => (framePoints s pts f).length)).sum
      = min pts.length (F * s) := by
  induction F with
  | zero => simp
  | succ F ih =>
    rw [List.sum_range_succ, ih]
    simp only [framePoints, List.length_take, List.length_drop, Nat.add_mul, Nat.one_mul]
    omega

theorem le_ceil_mul (n b : Nat) (hb : 0 < b) : n ≤ (n + b - 1) / b * b := by
  rw [ceil_div_eq n b hb]
  have h := Nat.div_add_mod n b
  have hlt := Nat.mod_lt n hb
  rw [Nat.mul_comm] at h
  split
  · omega
  · rw [Nat.add_mul, Nat.one_mul]
    omega

theorem totalPoses_framesOf (s : Nat) (pose : Nat → FTransform K) (pts : List (Nat × FName)) :
    totalPoses (framesOf s pose pts)
      = ((List.range ((pts.length + s - 1) / s)).map
          (fun f => (frameBlock pose (framePoints s pts f)).length)).sum := by
  simp [totalPoses, framesOf, TMap.Num, List.map_map, Function.comp_def]

theorem totalPoses_framesOf_le (s : Nat) (pose : Nat → FTransform K)
    (pts : List (Nat × FName)) : totalPoses (framesOf s pose pts) ≤ pts.length := by
  rw [totalPoses_framesOf]
  calc ((List.range ((pts.length + s - 1) / s)).map
          (fun f => (frameBlock pose (framePoints s pts f)).length)).sum
      ≤ ((List.range ((pts.length + s - 1) / s)).map
          (fun f => (framePoints s pts f).length)).sum :=
        List.sum_le_sum (fun f _ => length_frameBlock_le pose _)
    _ = min pts.length ((pts.length + s - 1) / s * s) := sum_length_framePoints s pts _
    _ ≤ pts.length := Nat.min_le_left _ _

theorem totalPoses_framesOf_eq (s : Nat) (hs : 0 < s) (pose : Nat → FTransform K)
    (pts : List (Nat × FName))
    (h : ∀ f, ((framePoints s pts f).map Prod.snd).Nodup) :
    totalPoses (framesOf s pose pts) = pts.length := by
  rw [totalPoses_framesOf]
  have hcongr : (List.range ((pts.length + s - 1) / s)).map
          (fun f => (frameBlock pose (framePoints s pts f)).length)
      = (List.range ((pts.length + s - 1) / s)).map (fun f => (framePoints s pts f).length) :=
    List.map_congr_left (fun f _ => length_frameBlock_of_nodup pose _ (h f))
  rw [hcongr, sum_length_framePoints]
  exact Nat.min_eq_left (le_ceil_mul _ _ hs)

/-- The decode loop of the translator in closed form, for a name array that is not empty. -/
theorem decodeLoop_eq (pose : Nat → FTransform K) (names : List FName) (h : names ≠ []) :
    decodeLoop pose names
      = ⟨framesOf (BoneNames names).length pose (loopPoints names (BoneNames names).length),
          (names.length - (BoneNames names).length) / (BoneNames names).length,
          (names.length - (BoneNames names).length) % (BoneNames names).length,
          (loopPoints names (BoneNames names).length).enum.map
            (fun jp => (jp.1 / (BoneNames names).length, jp.2.2,
              jp.1 % (BoneNames names).length))⟩ := by
  unfold decodeLoop decodeFrom
  rw [decode_foldl_eq _ (boneNames_length_pos names h), length_loopPoints]

theorem find_range_map {ν : Type} (n : Nat) (g : Nat → ν) (f : Nat) (hf : f < n) :
    TMap.Find ((List.range n).map (fun f => (f, g f))) f = some (g f) := by
  induction n with
  | zero => omega
  | succ n ih =>
    rw [List.range_succ, List.map_append, List.map_singleton]
    by_cases hfn : f = n
    · subst hfn
      apply TMap.find_append_last
      rw [getKeys_range_map]
      simp
    · have hlt : f < n := by omega
      rw [← ih hlt]
      generalize (List.range n).map (fun f => (f, g f)) = m
      induction m with
      | nil => simp [TMap.Find, Ne.symm hfn]
      | cons e rest ihm =>
        obtain ⟨k, v⟩ := e
        by_cases hk : k = f
        · simp [TMap.Find, hk]
        · simp only [List.cons_append, TMap.Find, hk, if_false]
          exact ihm

theorem find_framesOf_last (s : Nat) (hs : 0 < s) (pose : Nat → FTransform K)
    (pts : List (Nat × FName)) (p : Nat × FName) :
    TMap.Find (framesOf s pose (pts ++ [p])) (pts.length / s)
      = some (TMap.Add (frameBlock pose (pts.drop (pts.length / s * s))) p.2 (pose p.1)) := by
  unfold framesOf
  rw [find_range_map, framePoints_snoc_last s hs, frameBlock_snoc]
  rw [List.length_append, List.length_singleton, ceil_div_succ _ _ hs]
  omega

theorem decodeLoop_nil (pose : Nat → FTransform K) :
    decodeLoop pose [] = DecodeState.init := rfl

end FrameSizes

/-! ## The parent-space pass in closed form -/

section ResolveFacts

variable {K : Type} [LinearOrderedField K]

theorem find_of_mem_nodup {κ ν : Type} [DecidableEq κ] (m : TMap κ ν)
    (h : (TMap.GetKeys m).Nodup) (e : κ × ν) (he : e ∈ m) : TMap.Find m e.1 = some e.2 := by
  induction m with
  | nil => simp at he
  | cons x rest ih =>
    obtain ⟨k, v⟩ := x
    simp only [TMap.GetKeys, List.map_cons, List.nodup_cons] at h
    rcases List.mem_cons.mp he with he | he
    · subst he
      simp [TMap.Find]
    · have hk : k ≠ e.1 := by
        intro hk
        apply h.1
        rw [hk]
        exact List.mem_map_of_mem _ he
      simp only [TMap.Find, hk, if_false]
      exact ih h.2 he

theorem resolveElem_eq (eng : EngineMath K) (sk : FReferenceSkeleton)
    (m : TMap FName (FTransform K)) (tr : BoneTracks K) (Elem : FName × FTransform K) :
    resolveElem eng sk m tr Elem
      = applyKeys tr ((TMap.Find m (ParentBoneName sk Elem.1)).map
          (fun P => (Elem.1, BoneLXform eng Elem.2 P))).toList := by
  unfold resolveElem
  dsimp only
  cases h : TMap.Find m (ParentBoneName sk Elem.1) with
  | none => rfl
  | some P => rfl

omit [LinearOrderedField K] in
theorem applyKeys_append (tr : BoneTracks K) (a b : List (FName × FTransform K)) :
    applyKeys tr (a ++ b) = applyKeys (applyKeys tr a) b := by
  simp [applyKeys, List.foldl_append]

theorem foldl_resolveElem_eq (eng : EngineMath K) (sk : FReferenceSkeleton)
    (m : TMap FName (FTransform K)) (elems : List (FName × FTransform K)) (tr : BoneTracks K) :
    elems.foldl (resolveElem eng sk m) tr
      = applyKeys tr (elems.filterMap (fun Elem =>
          (TMap.Find m (ParentBoneName sk Elem.1)).map
            (fun P => (Elem.1, BoneLXform eng Elem.2 P)))) := by
  induction elems generalizing tr with
  | nil => rfl
  | cons e rest ih =>
    rw [List.foldl_cons, ih, resolveElem_eq, ← applyKeys_append]
    congr 1
    cases h : TMap.Find m (ParentBoneName sk e.1) <;> simp [List.filterMap_cons, h]

theorem resolveFrame_eq (eng : EngineMath K) (sk : FReferenceSkeleton)
    (M : TMap Nat (TMap FName (FTransform K))) (hM : (TMap.GetKeys M).Nodup)
    (tr : BoneTracks K) (fr : Nat × TMap FName (FTransform K)) (hfr : fr ∈ M) :
    resolveFrame eng sk M tr fr.1 = applyKeys tr (frameKeys eng sk fr.2) := by
  unfold resolveFrame
  rw [find_of_mem_nodup M hM fr hfr]
  exact foldl_resolveElem_eq eng sk fr.2 fr.2 tr

theorem foldl_resolveFrame_eq (eng : EngineMath K) (sk : FReferenceSkeleton)
    (M : TMap Nat (TMap FName (FTransform K))) (hM : (TMap.GetKeys M).Nodup)
    (frames : List (Nat × TMap FName (FTransform K))) (hsub : ∀ fr ∈ frames, fr ∈ M)
    (tr : BoneTracks K) :
    (frames.map Prod.fst).foldl (resolveFrame eng sk M) tr
      = applyKeys tr (allKeys eng sk frames) := by
  induction frames generalizing tr with
  | nil => rfl
  | cons fr rest ih =>
    rw [List.map_cons, List.foldl_cons,
      resolveFrame_eq eng sk M hM tr fr (hsub fr (List.mem_cons_self _ _)),
      ih (fun x hx => hsub x (List.mem_cons_of_mem _ hx))]
    simp [allKeys, applyKeys_append]

/-- The parent-space pass is the list of emitted keys applied to empty key maps. -/
theorem resolveLoop_eq (eng : EngineMath K) (sk : FReferenceSkeleton)
    (M : TMap Nat (TMap FName (FTransform K))) (hM : (TMap.GetKeys M).Nodup) :
    resolveLoop eng sk M = applyKeys BoneTracks.init (allKeys eng sk M) :=
  foldl_resolveFrame_eq eng sk M hM M (fun _ h => h) BoneTracks.init

theorem find_foldl_appendKey {β : Type} (b : FName) (evs : List (FName × β))
    (m : TMap FName (List β)) :
    TMap.Find (evs.foldl appendKey m) b
      = match TMap.Find m b with
        | none => arrayOf (keysFor b evs)
        | some a => some (a ++ keysFor b evs) := by
  induction evs generalizing m with
  | nil =>
    cases h : TMap.Find m b <;> simp [keysFor, arrayOf, h]
  | cons e rest ih =>
    rw [List.foldl_cons, ih]
    by_cases he : e.1 = b
    · have h1 : TMap.Find (appendKey m e) b = some ((TMap.Find m b).getD [] ++ [e.2]) := by
        unfold appendKey TMap.FindOrAdd
        rw [he]
        exact TMap.find_add_self _ _ _
      have h2 : keysFor b (e :: rest) = e.2 :: keysFor b rest := by
        simp [keysFor, List.filterMap_cons, he]
      rw [h1, h2]
      cases h : TMap.Find m b <;> simp [arrayOf]
    · have h1 : TMap.Find (appendKey m e) b = TMap.Find m b := by
        unfold appendKey TMap.FindOrAdd
        exact TMap.find_add_of_ne _ _ _ _ he
      have h2 : keysFor b (e :: rest) = keysFor b rest := by
        simp [keysFor, List.filterMap_cons, he]
      rw [h1, h2]

omit [LinearOrderedField K] in
theorem find_foldl_appendKey_sel {β : Type} (sel : FTransform K → β) (b : FName)
    (evs : List (FName × FTransform K)) :
    TMap.Find (evs.foldl (fun m e => appendKey m (e.1, sel e.2)) []) b
      = arrayOf ((keysFor b evs).map sel) := by
  have h := find_foldl_appendKey b (evs.map (fun e => (e.1, sel e.2))) ([] : TMap FName (List β))
  rw [List.foldl_map] at h
  rw [h]
  simp only [TMap.Find]
  congr 1
  simp only [keysFor, List.filterMap_map, List.map_filterMap]
  congr 1
  funext e
  by_cases he : e.1 = b <;> simp [he]

theorem localPose_eq_bind (eng : EngineMath K) (sk : FReferenceSkeleton)
    (m : TMap FName (FTransform K)) (b : FName) :
    localPose eng sk m b
      = (TMap.Find m b).bind (fun C =>
          (TMap.Find m (ParentBoneName sk b)).map (fun P => BoneLXform eng C P)) := by
  unfold localPose
  cases TMap.Find m b <;> cases TMap.Find m (ParentBoneName sk b) <;> rfl

theorem filterMap_key_of_nodup {ν γ : Type} (b : FName) (g : ν → Option γ) (m : TMap FName ν)
    (h : (TMap.GetKeys m).Nodup) :
    m.filterMap (fun x => if x.1 = b then g x.2 else none)
      = ((TMap.Find m b).bind g).toList := by
  induction m with
  | nil => rfl
  | cons x rest ih =>
    obtain ⟨k, v⟩ := x
    simp only [TMap.GetKeys, List.map_cons, List.nodup_cons] at h
    by_cases hk : k = b
    · subst hk
      have hnone : rest.filterMap (fun x => if x.1 = k then g x.2 else none) = [] := by
        rw [ih h.2, TMap.find_eq_none_of_not_mem rest k h.1]
        rfl
      simp only [TMap.Find, if_true, Option.some_bind]
      cases hg : g v with
      | none => simp [List.filterMap_cons, hg, hnone]
      | some c => simp [List.filterMap_cons, hg, hnone]
    · simp only [TMap.Find, hk, if_false]
      rw [← ih h.2]
      simp [List.filterMap_cons, hk]

theorem keysFor_frameKeys (eng : EngineMath K) (sk : FReferenceSkeleton)
    (m : TMap FName (FTransform K)) (h : (TMap.GetKeys m).Nodup) (b : FName) :
    keysFor b (frameKeys eng sk m) = (localPose eng sk m b).toList := by
  unfold keysFor frameKeys
  rw [List.filterMap_filterMap, localPose_eq_bind,
    ← filterMap_key_of_nodup b
      (fun C => (TMap.Find m (ParentBoneName sk b)).map (fun P => BoneLXform eng C P)) m h]
  congr 1
  funext x
  by_cases hx : x.1 = b
  · subst hx
    cases TMap.Find m (ParentBoneName sk x.1) <;> simp
  · cases TMap.Find m (ParentBoneName sk x.1) <;> simp [hx]

theorem keysFor_allKeys (eng : EngineMath K) (sk : FReferenceSkeleton)
    (M : TMap Nat (TMap FName (FTransform K)))
    (hin : ∀ fr ∈ M, (TMap.GetKeys fr.2).Nodup) (b : FName) :
    keysFor b (allKeys eng sk M) = localTrack eng sk M b := by
  induction M with
  | nil => rfl
  | cons fr rest ih =>
    have h1 : keysFor b (allKeys eng sk (fr :: rest))
        = keysFor b (frameKeys eng sk fr.2) ++ keysFor b (allKeys eng sk rest) := by
      simp [keysFor, allKeys, List.filterMap_append]
    rw [h1, keysFor_frameKeys eng sk fr.2 (hin fr (List.mem_cons_self _ _)) b,
      ih (fun x hx => hin x (List.mem_cons_of_mem _ hx))]
    unfold localTrack
    cases h : localPose eng sk fr.2 b <;> simp [List.filterMap_cons, h]

/-- The four key maps after the parent-space pass: the array of a bone is its local track,
and a bone with an empty track has no entry. -/
theorem resolveLoop_find (eng : EngineMath K) (sk : FReferenceSkeleton)
    (M : TMap Nat (TMap FName (FTransform K))) (hM : (TMap.GetKeys M).Nodup)
    (hin : ∀ fr ∈ M, (TMap.GetKeys fr.2).Nodup) (b : FName) :
    TMap.Find (resolveLoop eng sk M).BoneKeyMap b = arrayOf (localTrack eng sk M b)
    ∧ TMap.Find (resolveLoop eng sk M).BonePosMap b
        = arrayOf ((localTrack eng sk M b).map (fun L => L.Translation))
    ∧ TMap.Find (resolveLoop eng sk M).BoneRotMap b
        = arrayOf ((localTrack eng sk M b).map (fun L => L.Rotation))
    ∧ TMap.Find (resolveLoop eng sk M).BoneScaleMap b
        = arrayOf ((localTrack eng sk M b).map (fun L => L.Scale3D)) := by
  rw [resolveLoop_eq eng sk M hM, ← keysFor_allKeys eng sk M hin b]
  refine ⟨?_, ?_, ?_, ?_⟩
  · have h := find_foldl_appendKey_sel (fun L : FTransform K => L) b (allKeys eng sk M)
    simpa [applyKeys, BoneTracks.init] using h
  · exact find_foldl_appendKey_sel (fun L : FTransform K => L.Translation) b (allKeys eng sk M)
  · exact find_foldl_appendKey_sel (fun L : FTransform K => L.Rotation) b (allKeys eng sk M)
  · exact find_foldl_appendKey_sel (fun L : FTransform K => L.Scale3D) b (allKeys eng sk M)

end ResolveFacts

/-! ## Shape of the decoded frame map -/

section DecodedShape

variable {K : Type}

theorem getKeys_decodeLoop (pose : Nat → FTransform K) (names : List FName) :
    TMap.GetKeys (decodeLoop pose names).FrameBoneTransformMap
      = List.range ((names.length - (BoneNames names).length + (BoneNames names).length - 1)
          / (BoneNames names).length) := by
  by_cases hne : names = []
  · subst hne
    simp [decodeLoop_nil, DecodeState.init, TMap.GetKeys, BoneNames]
  · rw [decodeLoop_eq pose names hne]
    simp only [getKeys_framesOf, length_loopPoints]

theorem sorted_range (n : Nat) : (List.range n).Sorted (· < ·) := by
  induction n with
  | zero => simp
  | succ n ih =>
    rw [List.range_succ]
    unfold List.Sorted at *
    rw [List.pairwise_append]
    refine ⟨ih, by simp, ?_⟩
    intro a ha b hb
    simp only [List.mem_singleton] at hb
    subst hb
    exact List.mem_range.mp ha

theorem sorted_getKeys_decodeLoop (pose : Nat → FTransform K) (names : List FName) :
    (TMap.GetKeys (decodeLoop pose names).FrameBoneTransformMap).Sorted (· < ·) := by
  rw [getKeys_decodeLoop]
  exact sorted_range _

theorem nodup_getKeys_decodeLoop (pose : Nat → FTransform K) (names : List FName) :
    (TMap.GetKeys (decodeLoop pose names).FrameBoneTransformMap).Nodup := by
  rw [getKeys_decodeLoop]
  exact List.nodup_range _

theorem mem_decodeLoop_frames (pose : Nat → FTransform K) (names : List FName)
    (fr : Nat × TMap FName (FTransform K))
    (hfr : fr ∈ (decodeLoop pose names).FrameBoneTransformMap) :
    fr.2 = frameBlock pose (framePoints (BoneNames names).length
      (loopPoints names (BoneNames names).length) fr.1) := by
  by_cases hne : names = []
  · subst hne
    simp [decodeLoop_nil, DecodeState.init] at hfr
  · rw [decodeLoop_eq pose names hne] at hfr
    simp only [framesOf, List.mem_map, List.mem_range] at hfr
    obtain ⟨f, _, rfl⟩ := hfr
    rfl

theorem nodup_inner_decodeLoop (pose : Nat → FTransform K) (names : List FName) :
    ∀ fr ∈ (decodeLoop pose names).FrameBoneTransformMap, (TMap.GetKeys fr.2).Nodup := by
  intro fr hfr
  rw [mem_decodeLoop_frames pose names fr hfr]
  exact nodup_getKeys_frameBlock pose _

theorem mem_names_of_decodeLoop (pose : Nat → FTransform K) (names : List FName)
    (fr : Nat × TMap FName (FTransform K))
    (hfr : fr ∈ (decodeLoop pose names).FrameBoneTransformMap) (b : FName)
    (hb : b ∈ TMap.GetKeys fr.2) : b ∈ names := by
  rw [mem_decodeLoop_frames pose names fr hfr, mem_getKeys_frameBlock, framePoints_names] at hb
  exact List.mem_of_mem_drop (List.mem_of_mem_take hb)

end DecodedShape

/-! ## Lengths of the tracks and the committed curves -/

section TrackFacts

variable {K : Type} [LinearOrderedField K]

theorem localPose_isSome (eng : EngineMath K) (sk : FReferenceSkeleton)
    (m : TMap FName (FTransform K)) (b : FName) :
    (localPose eng sk m b).isSome
      = (TMap.Contains m b && TMap.Contains m (ParentBoneName sk b)) := by
  unfold localPose TMap.Contains
  cases TMap.Find m b <;> cases TMap.Find m (ParentBoneName sk b) <;> rfl

theorem length_localTrack (eng : EngineMath K) (sk : FReferenceSkeleton)
    (M : TMap Nat (TMap FName (FTransform K))) (b : FName) :
    (localTrack eng sk M b).length
      = M.countP (fun fr => TMap.Contains fr.2 b && TMap.Contains fr.2 (ParentBoneName sk b)) := by
  induction M with
  | nil => rfl
  | cons fr rest ih =>
    have h := localPose_isSome eng sk fr.2 b
    unfold localTrack at ih ⊢
    rw [List.countP_cons, ← ih, ← h]
    cases hl : localPose eng sk fr.2 b <;> simp [List.filterMap_cons, hl]

theorem countP_split {α : Type} (l : List α) (p q : α → Bool) :
    l.countP p = l.countP (fun a => p a && q a) + l.countP (fun a => p a && !q a) := by
  induction l with
  | nil => rfl
  | cons a rest ih =>
    simp only [List.countP_cons, ih]
    cases p a <;> cases q a <;> simp <;> omega

theorem mem_localTrack_of_mem (eng : EngineMath K) (sk : FReferenceSkeleton)
    (M : TMap Nat (TMap FName (FTransform K))) (b : FName)
    (h : localTrack eng sk M b ≠ []) :
    ∃ fr ∈ M, b ∈ TMap.GetKeys fr.2 := by
  obtain ⟨L, hL⟩ := List.exists_mem_of_ne_nil _ h
  unfold localTrack at hL
  rw [List.mem_filterMap] at hL
  obtain ⟨fr, hfr, hpose⟩ := hL
  refine ⟨fr, hfr, ?_⟩
  rw [← TMap.contains_iff]
  have h2 := localPose_isSome eng sk fr.2 b
  rw [hpose] at h2
  simp only [Option.isSome_some] at h2
  cases hc : TMap.Contains fr.2 b
  · rw [hc] at h2
    simp at h2
  · rfl

omit [LinearOrderedField K] in
theorem addBoneCurve_mem_commitTracks (set : TSet FName) (FrameIndex : Nat) (tr : BoneTracks K)
    (b : FName) :
    Effect.AddBoneCurve b ∈ commitTracks set FrameIndex tr
      ↔ b ∈ set ∧ TMap.Contains tr.BonePosMap b = true ∧ TMap.Contains tr.BoneRotMap b = true
          ∧ TMap.Contains tr.BoneScaleMap b = true := by
  unfold commitTracks
  simp only [List.mem_append, List.mem_cons, List.mem_flatMap, List.mem_singleton,
    List.not_mem_nil, or_false, false_or, reduceCtorEq]
  constructor
  · rintro ⟨a, ha, hmem⟩
    unfold commitBone at hmem
    split at hmem
    · rename_i hc
      simp only [List.mem_cons, Effect.AddBoneCurve.injEq, reduceCtorEq, List.mem_singleton,
        List.not_mem_nil, or_false] at hmem
      subst hmem
      simp only [Bool.and_eq_true] at hc
      exact ⟨ha, hc.1.1, hc.1.2, hc.2⟩
    · simp at hmem
  · rintro ⟨hb, h1, h2, h3⟩
    refine ⟨b, hb, ?_⟩
    unfold commitBone
    simp [h1, h2, h3]

omit [LinearOrderedField K] in
theorem setBoneTrackKeys_mem_commitTracks (set : TSet FName) (FrameIndex : Nat)
    (tr : BoneTracks K) (b : FName)
    (h : Effect.AddBoneCurve b ∈ commitTracks set FrameIndex tr) :
    Effect.SetBoneTrackKeys b ((TMap.Find tr.BonePosMap b).getD [])
        ((TMap.Find tr.BoneRotMap b).getD []) ((TMap.Find tr.BoneScaleMap b).getD [])
      ∈ commitTracks set FrameIndex tr := by
  obtain ⟨hb, h1, h2, h3⟩ := (addBoneCurve_mem_commitTracks set FrameIndex tr b).mp h
  unfold commitTracks
  simp only [List.mem_append, List.mem_cons, List.mem_flatMap, List.mem_singleton,
    List.not_mem_nil, or_false, false_or, reduceCtorEq]
  refine ⟨b, hb, ?_⟩
  unfold commitBone
  simp [h1, h2, h3]

omit [LinearOrderedField K] in
theorem arrayOf_isSome {β : Type} (l : List β) : (arrayOf l).isSome = !l.isEmpty := by
  unfold arrayOf
  cases l <;> rfl

omit [LinearOrderedField K] in
theorem arrayOf_getD {β : Type} (l : List β) : (arrayOf l).getD [] = l := by
  unfold arrayOf
  cases l <;> rfl

end TrackFacts

/-! ## Facts about the transform algebra -/

section MathFacts

variable {K : Type} [LinearOrderedField K]

theorem small_number_pos : (0 : K) < SMALL_NUMBER := by
  unfold SMALL_NUMBER
  norm_num

theorem safeReciprocal_of_lt (x : K) (h : SMALL_NUMBER < x) : SafeReciprocal x = 1 / x := by
  have hpos : (0 : K) < x := lt_trans small_number_pos h
  unfold SafeReciprocal
  rw [abs_of_pos hpos, if_neg (not_le.mpr h)]

theorem anyHasNegativeScale_of_pos (a b : FVector K) (hax : 0 < a.X) (hay : 0 < a.Y)
    (haz : 0 < a.Z) (hbx : 0 < b.X) (hby : 0 < b.Y) (hbz : 0 < b.Z) :
    AnyHasNegativeScale a b = false := by
  unfold AnyHasNegativeScale
  simp [not_lt.mpr (le_of_lt hax), not_lt.mpr (le_of_lt hay), not_lt.mpr (le_of_lt haz),
    not_lt.mpr (le_of_lt hbx), not_lt.mpr (le_of_lt hby), not_lt.mpr (le_of_lt hbz)]

/-- A pose with a normalised rotation and scale components above the tolerance, multiplied
by its own inverse, is the identity transform. -/
theorem boneLXform_self (eng : EngineMath K) (W : FTransform K)
    (hq : W.Rotation.SizeSquared = 1) (hx : SMALL_NUMBER < W.Scale3D.X)
    (hy : SMALL_NUMBER < W.Scale3D.Y) (hz : SMALL_NUMBER < W.Scale3D.Z) :
    BoneLXform eng W W = FTransform.Identity := by
  have hpx : (0 : K) < W.Scale3D.X := lt_trans small_number_pos hx
  have hpy : (0 : K) < W.Scale3D.Y := lt_trans small_number_pos hy
  have hpz : (0 : K) < W.Scale3D.Z := lt_trans small_number_pos hz
  have hneg : AnyHasNegativeScale W.Scale3D (GetSafeScaleReciprocal W.Scale3D) = false := by
    apply anyHasNegativeScale_of_pos _ _ hpx hpy hpz
    · simp only [GetSafeScaleReciprocal, safeReciprocal_of_lt _ hx]
      positivity
    · simp only [GetSafeScaleReciprocal, safeReciprocal_of_lt _ hy]
      positivity
    · simp only [GetSafeScaleReciprocal, safeReciprocal_of_lt _ hz]
      positivity
  unfold BoneLXform FTransform.Multiply
  simp only [FTransform.Inverse, hneg, Bool.false_eq_true, if_false, FTransform.Identity,
    FTransform.mk.injEq]
  unfold FQuat.SizeSquared at hq
  refine ⟨?_, ?_, ?_⟩
  · simp only [FQuat.mul, FQuat.Inverse, FQuat.Identity, FQuat.mk.injEq]
    refine ⟨by ring, by ring, by ring, ?_⟩
    linear_combination hq
  · simp only [FQuat.RotateVector, FQuat.Inverse, FVector.add, FVector.scale, FVector.mul,
      FVector.neg, FVector.CrossProduct, GetSafeScaleReciprocal, FVector.mk.injEq]
    refine ⟨by ring, by ring, by ring⟩
  · simp only [FVector.mul, GetSafeScaleReciprocal, safeReciprocal_of_lt _ hx,
      safeReciprocal_of_lt _ hy, safeReciprocal_of_lt _ hz, FVector.mk.injEq]
    refine ⟨?_, ?_, ?_⟩
    · field_simp
    · field_simp
    · field_simp

/-- A pose with positive scale components, multiplied by the inverse of the identity
transform, is unchanged. -/
theorem boneLXform_identity_parent (eng : EngineMath K) (C : FTransform K)
    (hx : 0 < C.Scale3D.X) (hy : 0 < C.Scale3D.Y) (hz : 0 < C.Scale3D.Z) :
    BoneLXform eng C FTransform.Identity = C := by
  have hone : SafeReciprocal (1 : K) = 1 := by
    rw [safeReciprocal_of_lt]
    · norm_num
    · unfold SMALL_NUMBER
      norm_num
  have hneg : AnyHasNegativeScale C.Scale3D
      (GetSafeScaleReciprocal (FTransform.Identity : FTransform K).Scale3D) = false := by
    apply anyHasNegativeScale_of_pos _ _ hx hy hz <;>
      simp [GetSafeScaleReciprocal, FTransform.Identity, hone]
  unfold BoneLXform FTransform.Multiply
  simp only [FTransform.Inverse, hneg, Bool.false_eq_true, if_false]
  obtain ⟨⟨qx, qy, qz, qw⟩, ⟨tx, ty, tz⟩, ⟨sx, sy, sz⟩⟩ := C
  simp only [FTransform.Identity, FQuat.Identity, FQuat.mul, FQuat.Inverse, FQuat.RotateVector,
    FVector.add, FVector.scale, FVector.mul, FVector.neg, FVector.CrossProduct,
    GetSafeScaleReciprocal, hone, FTransform.mk.injEq, FQuat.mk.injEq, FVector.mk.injEq]
  refine ⟨⟨by ring, by ring, by ring, by ring⟩, ⟨by ring, by ring, by ring⟩,
    ⟨by ring, by ring, by ring⟩⟩

/-- The conversion to host space followed by the inverse formula gives the pose back, for a
normalised constant rotation `R`. -/
theorem hostToGenerator_unrealPoseTransform (R : FQuat K) (hR : R.SizeSquared = 1)
    (P : FTransform K) : hostToGenerator R (UnrealPoseTransform R P) = P := by
  obtain ⟨⟨qx, qy, qz, qw⟩, ⟨tx, ty, tz⟩, ⟨sx, sy, sz⟩⟩ := P
  unfold FQuat.SizeSquared at hR
  simp only [hostToGenerator, UnrealPoseTransform, ConvertedPoseQ, ConvertedPoseT, FQuat.mul,
    FQuat.Inverse, FVector.scale, FTransform.mk.injEq, FQuat.mk.injEq, FVector.mk.injEq]
  refine ⟨⟨?_, ?_, ?_, ?_⟩, ⟨by ring, by ring, by ring⟩, ⟨by ring, by ring, by ring⟩⟩
  · linear_combination qx * hR
  · linear_combination qy * hR
  · linear_combination qz * hR
  · linear_combination qw * hR

end MathFacts

/-! ## Claims about the decode loop -/

section DecodeClaims

variable {K : Type}

theorem sub_mod_of_mod (n b : Nat) (h : n % b = 0) : (n - b) % b = 0 :=
  Nat.mod_eq_zero_of_dvd (Nat.dvd_sub' (Nat.dvd_of_mod_eq_zero h) (Nat.dvd_refl b))

theorem num_decodeLoop_of_dvd (pose : Nat → FTransform K) (names : List FName)
    (hdiv : names.length % (BoneNames names).length = 0) :
    TMap.Num (decodeLoop pose names).FrameBoneTransformMap
      = (names.length - (BoneNames names).length) / (BoneNames names).length := by
  have hkeys := congrArg List.length (getKeys_decodeLoop pose names)
  simp only [TMap.GetKeys, List.length_map, List.length_range] at hkeys
  unfold TMap.Num
  rw [hkeys]
  by_cases hne : names = []
  · subst hne
    simp [BoneNames]
  · rw [ceil_div_eq _ _ (boneNames_length_pos names hne), if_pos (sub_mod_of_mod _ _ hdiv)]

/-- C1, counterexample. The name array `[a, b, a, a]` has four points, a name set of two
names, `4 mod 2 = 0` and two distinct names among its first two entries, the only frame gets
the name `a` twice, and the frame map ends with one pose, not with `4 - 2 = 2`. -/
theorem decodeLoop_duplicate_name_loses_pose :
    ([0, 1, 0, 0] : List FName).length % (BoneNames [0, 1, 0, 0]).length = 0
    ∧ (([0, 1, 0, 0] : List FName).take (BoneNames [0, 1, 0, 0]).length).dedup.length
        = (BoneNames [0, 1, 0, 0]).length
    ∧ ([0, 1, 0, 0] : List FName).length - (BoneNames [0, 1, 0, 0]).length = 2
    ∧ totalPoses (decodeLoop (fun _ => (FTransform.Identity : FTransform ℚ))
        [0, 1, 0, 0]).FrameBoneTransformMap = 1 := by
  decide

/-- C1 (amended). For every name array of `N` points with `N mod BoneCount = 0`, `BoneCount`
being the size of the name set, the decode loop makes exactly `N - BoneCount` stores, one per
visited point; the frame map then holds at most `N - BoneCount` poses, and exactly
`N - BoneCount` when no name occurs twice within the block of `BoneCount` points of a frame;
the poses are spread over exactly `ceil((N - BoneCount) / BoneCount) = (N - BoneCount) /
BoneCount` frames, and no frame holds more than `BoneCount` poses. -/
theorem decodeLoop_pose_count (pose : Nat → FTransform K) (names : List FName)
    (hdiv : names.length % (BoneNames names).length = 0) :
    (decodeLoop pose names).Log.length = names.length - (BoneNames names).length
    ∧ totalPoses (decodeLoop pose names).FrameBoneTransformMap
        ≤ names.length - (BoneNames names).length
    ∧ ((∀ f, ((names.drop ((BoneNames names).length + f * (BoneNames names).length)).take
            (BoneNames names).length).Nodup) →
        totalPoses (decodeLoop pose names).FrameBoneTransformMap
          = names.length - (BoneNames names).length)
    ∧ TMap.Num (decodeLoop pose names).FrameBoneTransformMap
        = (names.length - (BoneNames names).length + (BoneNames names).length - 1)
            / (BoneNames names).length
    ∧ TMap.Num (decodeLoop pose names).FrameBoneTransformMap
        = (names.length - (BoneNames names).length) / (BoneNames names).length
    ∧ ∀ fr ∈ (decodeLoop pose names).FrameBoneTransformMap,
        TMap.Num fr.2 ≤ (BoneNames names).length := by
  by_cases hne : names = []
  · subst hne
    simp [decodeLoop_nil, DecodeState.init, totalPoses, TMap.Num, BoneNames]
  · have hb := boneNames_length_pos names hne
    rw [decodeLoop_eq pose names hne]
    have hlen := length_loopPoints names (BoneNames names).length
    have hnum : TMap.Num (framesOf (BoneNames names).length pose
          (loopPoints names (BoneNames names).length))
        = (names.length - (BoneNames names).length + (BoneNames names).length - 1)
            / (BoneNames names).length := by
      simp [TMap.Num, framesOf, hlen]
    refine ⟨?_, ?_, ?_, hnum, ?_, ?_⟩
    · simp [List.enum_length, hlen]
    · have h := totalPoses_framesOf_le (BoneNames names).length pose
        (loopPoints names (BoneNames names).length)
      rwa [hlen] at h
    · intro hblocks
      have h := totalPoses_framesOf_eq (BoneNames names).length hb pose
        (loopPoints names (BoneNames names).length)
        (fun f => by rw [framePoints_names]; exact hblocks f)
      rwa [hlen] at h
    · rw [hnum, ceil_div_eq _ _ hb, if_pos (sub_mod_of_mod _ _ hdiv)]
    · intro fr hfr
      simp only [framesOf, List.mem_map, List.mem_range] at hfr
      obtain ⟨f, _, rfl⟩ := hfr
      calc TMap.Num (frameBlock pose (framePoints (BoneNames names).length
              (loopPoints names (BoneNames names).length) f))
          ≤ (framePoints (BoneNames names).length
              (loopPoints names (BoneNames names).length) f).length :=
            length_frameBlock_le pose _
        _ ≤ (BoneNames names).length := by
            simp only [framePoints, List.length_take]
            exact Nat.min_le_left _ _

/-- C1 (amended), witness: two bones, two frames after the leading block. -/
theorem decodeLoop_pose_count_witness :
    ([0, 1, 0, 1, 0, 1] : List FName).length % (BoneNames [0, 1, 0, 1, 0, 1]).length = 0
    ∧ totalPoses (decodeLoop (fun _ => (FTransform.Identity : FTransform ℚ))
        [0, 1, 0, 1, 0, 1]).FrameBoneTransformMap
        ≤ ([0, 1, 0, 1, 0, 1] : List FName).length - (BoneNames [0, 1, 0, 1, 0, 1]).length :=
  ⟨by decide,
   (decodeLoop_pose_count (fun _ => (FTransform.Identity : FTransform ℚ)) [0, 1, 0, 1, 0, 1]
      (by decide)).2.1⟩

end DecodeClaims

section SlotClaims

variable {K : Type}

/-- C6, counterexample. With the names `[a, b, a, b]` (`N = 4`, `BoneCount = 2`,
`4 mod 2 = 0`) the first visited point is `i = 2`: it is stored under frame 0 (bone slot 0),
while `i / BoneCount = 1`, and frame 1 holds no pose at all. -/
theorem decodeLoop_first_point_in_frame_zero :
    ([0, 1, 0, 1] : List FName).length % (BoneNames [0, 1, 0, 1]).length = 0
    ∧ (BoneNames [0, 1, 0, 1]).length ≤ 2 ∧ 2 < ([0, 1, 0, 1] : List FName).length
    ∧ 2 / (BoneNames [0, 1, 0, 1]).length = 1
    ∧ (decodeLoop (fun _ => (FTransform.Identity : FTransform ℚ)) [0, 1, 0, 1]).Log[
        2 - (BoneNames [0, 1, 0, 1]).length]? = some (0, 0, 0)
    ∧ TMap.Find (decodeLoop (fun _ => (FTransform.Identity : FTransform ℚ))
        [0, 1, 0, 1]).FrameBoneTransformMap (2 / (BoneNames [0, 1, 0, 1]).length) = none := by
  decide

/-- C6 (amended). For every name array of `N` points and every point index `i` with
`BoneCount <= i < N`, the decoder stores the pose of point `i` under frame index
`(i - BoneCount) / BoneCount`, which is `i / BoneCount - 1`, at bone slot `i mod BoneCount`:
that is the line the loop logs for the point, and right after the iteration for point `i`
the frame map holds the pose of point `i` for that frame and the name of the point. -/
theorem decodeLoop_point_slot (pose : Nat → FTransform K) (names : List FName) (i : Nat)
    (hlo : (BoneNames names).length ≤ i) (hhi : i < names.length) :
    (decodeLoop pose names).Log[i - (BoneNames names).length]?
        = some ((i - (BoneNames names).length) / (BoneNames names).length, names[i],
            i % (BoneNames names).length)
    ∧ (i - (BoneNames names).length) / (BoneNames names).length
        = i / (BoneNames names).length - 1
    ∧ (TMap.Find (decodeUpTo pose names i).FrameBoneTransformMap
          ((i - (BoneNames names).length) / (BoneNames names).length)).bind
        (fun BoneTransformMap => TMap.Find BoneTransformMap names[i]) = some (pose i) := by
  have hne : names ≠ [] := by
    intro h
    subst h
    simp at hhi
  have hb := boneNames_length_pos names hne
  have hi : (BoneNames names).length + (i - (BoneNames names).length) = i := by omega
  have hpt : (loopPoints names (BoneNames names).length)[i - (BoneNames names).length]?
      = some (i, names[i]) := by
    rw [loopPoints_getElem?, hi, List.getElem?_eq_getElem hhi]
    rfl
  have hmod : (i - (BoneNames names).length) % (BoneNames names).length
      = i % (BoneNames names).length := by
    conv_rhs => rw [← hi, Nat.add_comm, Nat.add_mod_right]
  have hdivs : i / (BoneNames names).length
      = (i - (BoneNames names).length) / (BoneNames names).length + 1 := by
    conv_lhs => rw [← hi, Nat.add_comm, Nat.add_div_right _ hb]
  refine ⟨?_, by rw [hdivs, Nat.add_sub_cancel], ?_⟩
  · rw [decodeLoop_eq pose names hne]
    simp only [List.getElem?_map, List.enum, List.getElem?_enumFrom, hpt, Option.map_some',
      Nat.zero_add, hmod]
  · unfold decodeUpTo
    have htake : (loopPoints names (BoneNames names).length).take
          (i + 1 - (BoneNames names).length)
        = (loopPoints names (BoneNames names).length).take (i - (BoneNames names).length)
          ++ [(i, names[i])] := by
      have h1 : i + 1 - (BoneNames names).length = (i - (BoneNames names).length) + 1 := by
        omega
      rw [h1, List.take_succ, hpt]
      rfl
    have hlen : ((loopPoints names (BoneNames names).length).take
          (i - (BoneNames names).length)).length = i - (BoneNames names).length := by
      rw [List.length_take, length_loopPoints]
      omega
    rw [htake, decode_foldl_eq _ hb]
    have hfind := find_framesOf_last (BoneNames names).length hb pose
      ((loopPoints names (BoneNames names).length).take (i - (BoneNames names).length))
      (i, names[i])
    rw [hlen] at hfind
    rw [hfind]
    exact TMap.find_add_self _ _ _

/-- C6 (amended), witness: point 3 of `[a, b, a, b]`. -/
theorem decodeLoop_point_slot_witness :
    (decodeLoop (fun _ => (FTransform.Identity : FTransform ℚ)) [0, 1, 0, 1]).Log[
        3 - (BoneNames [0, 1, 0, 1]).length]? = some (0, 1, 1) :=
  (decodeLoop_point_slot (fun _ => (FTransform.Identity : FTransform ℚ)) [0, 1, 0, 1] 3
    (by decide) (by decide)).1

end SlotClaims

/-! ## Claims about the parent-space pass and the committed tracks -/

section TrackClaims

variable {K : Type} [LinearOrderedField K]

theorem mem_of_find {κ ν : Type} [DecidableEq κ] (m : TMap κ ν) (k : κ) (v : ν)
    (h : TMap.Find m k = some v) : (k, v) ∈ m := by
  induction m with
  | nil => simp [TMap.Find] at h
  | cons x rest ih =>
    obtain ⟨k', v'⟩ := x
    by_cases hk : k' = k
    · simp only [TMap.Find, hk, if_true, Option.some.injEq] at h
      rw [hk, h]
      exact List.mem_cons_self _ _
    · simp only [TMap.Find, hk, if_false] at h
      exact List.mem_cons_of_mem _ (ih h)

theorem filterMap_map_some {α β : Type} (l : List α) (g : α → Option β) :
    (l.filterMap g).map some = (l.filter (fun a => (g a).isSome)).map g := by
  induction l with
  | nil => rfl
  | cons a rest ih =>
    cases h : g a <;> simp [List.filterMap_cons, List.filter_cons, h, ih]

/-- C2. For the pose map the decode loop builds, every reference skeleton and every bone
`b`: with `k` the number of frames whose pose map contains `b` and `m` the number of those
in which the parent of `b` has no pose, the position, rotation and scale key arrays of `b`
each have length `k - m`; a bone curve is committed for `b` exactly when `k - m > 0`, with
these three arrays as its keys, so a bone in no frame gets no curve. -/
theorem track_length_and_commit (eng : EngineMath K) (sk : FReferenceSkeleton)
    (pose : Nat → FTransform K) (names : List FName) (b : FName) :
    let st := decodeLoop pose names
    let tr := resolveLoop eng sk st.FrameBoneTransformMap
    let k := st.FrameBoneTransformMap.countP (fun fr => TMap.Contains fr.2 b)
    let m := st.FrameBoneTransformMap.countP
      (fun fr => TMap.Contains fr.2 b && !TMap.Contains fr.2 (ParentBoneName sk b))
    ((TMap.Find tr.BonePosMap b).getD []).length = k - m
    ∧ ((TMap.Find tr.BoneRotMap b).getD []).length = k - m
    ∧ ((TMap.Find tr.BoneScaleMap b).getD []).length = k - m
    ∧ (Effect.AddBoneCurve b ∈ commitTracks (BoneNames names) st.FrameIndex tr ↔ 0 < k - m)
    ∧ (0 < k - m →
        Effect.SetBoneTrackKeys b ((TMap.Find tr.BonePosMap b).getD [])
            ((TMap.Find tr.BoneRotMap b).getD []) ((TMap.Find tr.BoneScaleMap b).getD [])
          ∈ commitTracks (BoneNames names) st.FrameIndex tr)
    ∧ (k = 0 → Effect.AddBoneCurve b ∉ commitTracks (BoneNames names) st.FrameIndex tr) := by
  intro st tr k m
  obtain ⟨_, hpos, hrot, hscale⟩ := resolveLoop_find eng sk st.FrameBoneTransformMap
    (nodup_getKeys_decodeLoop pose names) (nodup_inner_decodeLoop pose names) b
  have hlen : (localTrack eng sk st.FrameBoneTransformMap b).length = k - m := by
    rw [length_localTrack]
    have hsplit := countP_split st.FrameBoneTransformMap (fun fr => TMap.Contains fr.2 b)
      (fun fr => TMap.Contains fr.2 (ParentBoneName sk b))
    show _ = st.FrameBoneTransformMap.countP (fun fr => TMap.Contains fr.2 b)
      - st.FrameBoneTransformMap.countP
          (fun fr => TMap.Contains fr.2 b && !TMap.Contains fr.2 (ParentBoneName sk b))
    omega
  have hcommit : Effect.AddBoneCurve b ∈ commitTracks (BoneNames names) st.FrameIndex tr
      ↔ 0 < k - m := by
    rw [addBoneCurve_mem_commitTracks]
    show b ∈ BoneNames names
      ∧ TMap.Contains (resolveLoop eng sk st.FrameBoneTransformMap).BonePosMap b = true
      ∧ TMap.Contains (resolveLoop eng sk st.FrameBoneTransformMap).BoneRotMap b = true
      ∧ TMap.Contains (resolveLoop eng sk st.FrameBoneTransformMap).BoneScaleMap b = true
      ↔ 0 < k - m
    unfold TMap.Contains
    rw [hpos, hrot, hscale, arrayOf_isSome, arrayOf_isSome, arrayOf_isSome, ← hlen]
    constructor
    · rintro ⟨_, h, _, _⟩
      cases hl : localTrack eng sk st.FrameBoneTransformMap b with
      | nil => simp [hl] at h
      | cons a rest => simp
    · intro h
      have hne : localTrack eng sk st.FrameBoneTransformMap b ≠ [] := by
        intro hnil
        rw [hnil] at h
        simp at h
      obtain ⟨fr, hfr, hb⟩ := mem_localTrack_of_mem eng sk _ b hne
      refine ⟨(mem_boneNames names b).mpr (mem_names_of_decodeLoop pose names fr hfr b hb),
        ?_, ?_, ?_⟩ <;>
      · cases hl : localTrack eng sk st.FrameBoneTransformMap b with
        | nil => exact absurd hl hne
        | cons a rest => simp
  refine ⟨?_, ?_, ?_, hcommit,
    fun hk => setBoneTrackKeys_mem_commitTracks _ _ _ b (hcommit.mpr hk), ?_⟩
  · show ((TMap.Find (resolveLoop eng sk st.FrameBoneTransformMap).BonePosMap b).getD []).length
      = k - m
    rw [hpos, arrayOf_getD, List.length_map, hlen]
  · show ((TMap.Find (resolveLoop eng sk st.FrameBoneTransformMap).BoneRotMap b).getD []).length
      = k - m
    rw [hrot, arrayOf_getD, List.length_map, hlen]
  · show ((TMap.Find (resolveLoop eng sk st.FrameBoneTransformMap).BoneScaleMap b).getD
      []).length = k - m
    rw [hscale, arrayOf_getD, List.length_map, hlen]
  · intro hk
    rw [hcommit]
    omega

/-- C9. For the pose map the decode loop builds and every bone `b`: the frames in which
both `b` and its parent have a pose, taken in the order the parent-space pass visits them,
have strictly increasing frame indices; the `j`-th key of the bone is the local pose computed
in the `j`-th of these frames; and the position, rotation and scale arrays of the bone are
the translations, rotations and scales of these same local poses, index by index. -/
theorem track_in_frame_order (eng : EngineMath K) (sk : FReferenceSkeleton)
    (pose : Nat → FTransform K) (names : List FName) (b : FName) :
    let M := (decodeLoop pose names).FrameBoneTransformMap
    let tr := resolveLoop eng sk M
    (validFrames eng sk M b).Sorted (· < ·)
    ∧ (∀ f, f ∈ validFrames eng sk M b ↔
        ∃ m, TMap.Find M f = some m ∧ TMap.Contains m b = true
          ∧ TMap.Contains m (ParentBoneName sk b) = true)
    ∧ (localTrack eng sk M b).map some = (validFrames eng sk M b).map (localAt eng sk M b)
    ∧ TMap.Find tr.BoneKeyMap b = arrayOf (localTrack eng sk M b)
    ∧ TMap.Find tr.BonePosMap b = arrayOf ((localTrack eng sk M b).map (fun L => L.Translation))
    ∧ TMap.Find tr.BoneRotMap b = arrayOf ((localTrack eng sk M b).map (fun L => L.Rotation))
    ∧ TMap.Find tr.BoneScaleMap b
        = arrayOf ((localTrack eng sk M b).map (fun L => L.Scale3D)) := by
  intro M tr
  have hM : (TMap.GetKeys M).Nodup := nodup_getKeys_decodeLoop pose names
  have hfind := resolveLoop_find eng sk M hM (nodup_inner_decodeLoop pose names) b
  refine ⟨?_, ?_, ?_, hfind⟩
  · have hsub : List.Sublist (validFrames eng sk M b) (TMap.GetKeys M) :=
      List.Sublist.map Prod.fst (List.filter_sublist M)
    exact List.Pairwise.sublist hsub (sorted_getKeys_decodeLoop pose names)
  · intro f
    unfold validFrames
    simp only [List.mem_map, List.mem_filter]
    constructor
    · rintro ⟨fr, ⟨hfr, hsome⟩, rfl⟩
      rw [localPose_isSome, Bool.and_eq_true] at hsome
      exact ⟨fr.2, find_of_mem_nodup M hM fr hfr, hsome.1, hsome.2⟩
    · rintro ⟨m, hm, h1, h2⟩
      refine ⟨(f, m), ⟨mem_of_find M f m hm, ?_⟩, rfl⟩
      rw [localPose_isSome, Bool.and_eq_true]
      exact ⟨h1, h2⟩
  · unfold localTrack validFrames
    rw [filterMap_map_some, List.map_map]
    apply List.map_congr_left
    intro fr hfr
    have hmem : fr ∈ M := (List.mem_filter.mp hfr).1
    simp only [Function.comp, localAt, find_of_mem_nodup M hM fr hmem, Option.some_bind]

end TrackClaims

/-! ## Claims about the local transforms -/

section LocalClaims

variable {K : Type} [LinearOrderedField K]

theorem localPose_of_root (eng : EngineMath K) (sk : FReferenceSkeleton) (b : FName)
    (hroot : sk.FindBoneIndex b ≤ 0) (m : TMap FName (FTransform K)) :
    localPose eng sk m b = (TMap.Find m b).map (fun W => BoneLXform eng W W) := by
  have hp : ParentBoneName sk b = b := by
    unfold ParentBoneName
    simp only [not_lt.mpr hroot, if_false]
  unfold localPose
  rw [hp]
  cases TMap.Find m b <;> rfl

/-- C3, counterexample. The root bone alone, with the world pose `translate X = 1` in
frame 0: the key emitted for the root is the identity transform, with position `(0, 0, 0)`,
not the world pose, whose position is `(1, 0, 0)`. -/
theorem root_key_is_not_world_pose :
    twoBoneSkeleton.FindBoneIndex 0 = 0
    ∧ (TMap.Find (decodeLoop (fun _ => (translateX 1 : FTransform ℚ))
          [0, 0]).FrameBoneTransformMap 0).bind (fun m => TMap.Find m 0) = some (translateX 1)
    ∧ TMap.Find (resolveLoop sampleEngine twoBoneSkeleton
          (decodeLoop (fun _ => (translateX 1 : FTransform ℚ))
            [0, 0]).FrameBoneTransformMap).BoneKeyMap 0 = some [FTransform.Identity]
    ∧ TMap.Find (resolveLoop sampleEngine twoBoneSkeleton
          (decodeLoop (fun _ => (translateX 1 : FTransform ℚ))
            [0, 0]).FrameBoneTransformMap).BonePosMap 0 = some [⟨0, 0, 0⟩]
    ∧ (translateX 1 : FTransform ℚ).Translation = ⟨1, 0, 0⟩
    ∧ (FTransform.Identity : FTransform ℚ) ≠ translateX 1 := by
  have hM : (decodeLoop (fun _ => (translateX 1 : FTransform ℚ)) [0, 0]).FrameBoneTransformMap
      = [(0, [(0, translateX 1)])] := rfl
  have hL : BoneLXform sampleEngine (translateX 1 : FTransform ℚ) (translateX 1)
      = FTransform.Identity :=
    boneLXform_self sampleEngine (translateX 1)
      (by norm_num [translateX, FQuat.SizeSquared, FQuat.Identity])
      (by norm_num [translateX, SMALL_NUMBER]) (by norm_num [translateX, SMALL_NUMBER])
      (by norm_num [translateX, SMALL_NUMBER])
  rw [hM]
  refine ⟨rfl, rfl, ?_, ?_, rfl, ?_⟩
  · simp [resolveLoop, resolveFrame, resolveElem, TMap.GetKeys, TMap.Find, ParentBoneName,
      twoBoneSkeleton, TMap.FindOrAdd, TMap.Add, BoneTracks.init, hL]
  · simp [resolveLoop, resolveFrame, resolveElem, TMap.GetKeys, TMap.Find, ParentBoneName,
      twoBoneSkeleton, TMap.FindOrAdd, TMap.Add, BoneTracks.init, hL, FTransform.Identity]
  · simp [FTransform.Identity, translateX]

/-- C3 (amended). For every bone `b` without a parent in the reference skeleton (index 0,
or absent) and every frame in which `b` has a world pose `W`, the bone is taken as its own
parent and the local key emitted is `W * inverse(W)`; when `W` has a normalised rotation and
scale components above the tolerance `1e-8`, that key is the identity transform (zero
position, identity rotation, unit scale), whatever the world pose is. -/
theorem root_key_is_pose_times_own_inverse (eng : EngineMath K) (sk : FReferenceSkeleton)
    (pose : Nat → FTransform K) (names : List FName) (b : FName)
    (hroot : sk.FindBoneIndex b ≤ 0) :
    let M := (decodeLoop pose names).FrameBoneTransformMap
    TMap.Find (resolveLoop eng sk M).BoneKeyMap b
        = arrayOf ((M.filterMap (fun fr => TMap.Find fr.2 b)).map
            (fun W => BoneLXform eng W W))
    ∧ (∀ W : FTransform K, BoneLXform eng W W
        = FTransform.Multiply eng.MultiplyUsingMatrixWithScale W W.Inverse)
    ∧ (∀ W : FTransform K, W.Rotation.SizeSquared = 1 → SMALL_NUMBER < W.Scale3D.X →
        SMALL_NUMBER < W.Scale3D.Y → SMALL_NUMBER < W.Scale3D.Z →
        BoneLXform eng W W = FTransform.Identity) := by
  intro M
  refine ⟨?_, fun _ => rfl, fun W hq hx hy hz => boneLXform_self eng W hq hx hy hz⟩
  rw [(resolveLoop_find eng sk M (nodup_getKeys_decodeLoop pose names)
    (nodup_inner_decodeLoop pose names) b).1]
  congr 1
  unfold localTrack
  rw [List.map_filterMap]
  congr 1
  funext fr
  rw [localPose_of_root eng sk b hroot]

/-- C3 (amended), witness: the root alone with the world pose `translate X = 1`. -/
theorem root_key_is_pose_times_own_inverse_witness :
    twoBoneSkeleton.FindBoneIndex 0 ≤ 0
    ∧ TMap.Find (resolveLoop sampleEngine twoBoneSkeleton
          (decodeLoop (fun _ => (translateX 1 : FTransform ℚ))
            [0, 0]).FrameBoneTransformMap).BoneKeyMap 0
        = arrayOf (((decodeLoop (fun _ => (translateX 1 : FTransform ℚ))
            [0, 0]).FrameBoneTransformMap.filterMap (fun fr => TMap.Find fr.2 0)).map
            (fun W => BoneLXform sampleEngine W W)) :=
  ⟨by decide,
   (root_key_is_pose_times_own_inverse sampleEngine twoBoneSkeleton
      (fun _ => (translateX 1 : FTransform ℚ)) [0, 0] 0 (by decide)).1⟩

theorem translateX_sizeSquared (x : K) : (translateX x).Rotation.SizeSquared = 1 := by
  simp [translateX, FQuat.SizeSquared, FQuat.Identity]

theorem translateX_scale_gt (x : K) :
    SMALL_NUMBER < (translateX x).Scale3D.X ∧ SMALL_NUMBER < (translateX x).Scale3D.Y
      ∧ SMALL_NUMBER < (translateX x).Scale3D.Z := by
  refine ⟨?_, ?_, ?_⟩ <;> norm_num [translateX, SMALL_NUMBER]

theorem identity_eq_translateX : (FTransform.Identity : FTransform K) = translateX 0 := rfl

/-- C8. For every frame of the decoded pose map and every bone whose world pose `C` and
whose parent world pose `P` are both present in that frame, the local key emitted is
`C * inverse(P)`. On the two-bone scenario (frame 0: root at the identity, child at
`translate X = 1`; frame 1: both at `translate X = 1`) the local track of the child is
`[translate X = 1, identity]`: a child that moves rigidly with its parent gets the identity. -/
theorem local_key_is_child_times_parent_inverse (eng : EngineMath K)
    (sk : FReferenceSkeleton) (pose : Nat → FTransform K) (names : List FName) (b : FName)
    (fr : Nat × TMap FName (FTransform K)) (C P : FTransform K)
    (hfr : fr ∈ (decodeLoop pose names).FrameBoneTransformMap)
    (hC : TMap.Find fr.2 b = some C) (hP : TMap.Find fr.2 (ParentBoneName sk b) = some P) :
    (localAt eng sk (decodeLoop pose names).FrameBoneTransformMap b fr.1
        = some (FTransform.Multiply eng.MultiplyUsingMatrixWithScale C P.Inverse)
      ∧ FTransform.Multiply eng.MultiplyUsingMatrixWithScale C P.Inverse
          ∈ (TMap.Find (resolveLoop eng sk
              (decodeLoop pose names).FrameBoneTransformMap).BoneKeyMap b).getD [])
    ∧ ((decodeLoop (twoBonePose : Nat → FTransform K) [0, 1, 0, 1, 0, 1]).FrameBoneTransformMap
          = twoBoneFrames
      ∧ TMap.Find (resolveLoop eng twoBoneSkeleton twoBoneFrames).BoneKeyMap 1
          = some [translateX 1, FTransform.Identity]
      ∧ TMap.Find (resolveLoop eng twoBoneSkeleton twoBoneFrames).BonePosMap 1
          = some [⟨1, 0, 0⟩, ⟨0, 0, 0⟩]
      ∧ TMap.Find (resolveLoop eng twoBoneSkeleton twoBoneFrames).BoneRotMap 1
          = some [FQuat.Identity, FQuat.Identity]
      ∧ TMap.Find (resolveLoop eng twoBoneSkeleton twoBoneFrames).BoneScaleMap 1
          = some [⟨1, 1, 1⟩, ⟨1, 1, 1⟩]) := by
  have hM := nodup_getKeys_decodeLoop pose names
  have hpose : localPose eng sk fr.2 b
      = some (FTransform.Multiply eng.MultiplyUsingMatrixWithScale C P.Inverse) := by
    unfold localPose
    rw [hC, hP]
    rfl
  have hL0 : BoneLXform eng (translateX 1 : FTransform K) FTransform.Identity = translateX 1 :=
    boneLXform_identity_parent eng _ (by norm_num [translateX]) (by norm_num [translateX])
      (by norm_num [translateX])
  have hL1 : BoneLXform eng (translateX 1 : FTransform K) (translateX 1)
      = FTransform.Identity :=
    boneLXform_self eng _ (translateX_sizeSquared 1) (translateX_scale_gt 1).1
      (translateX_scale_gt 1).2.1 (translateX_scale_gt 1).2.2
  have hL2 : BoneLXform eng (FTransform.Identity : FTransform K) FTransform.Identity
      = FTransform.Identity := by
    rw [identity_eq_translateX]
    exact boneLXform_self eng _ (translateX_sizeSquared 0) (translateX_scale_gt 0).1
      (translateX_scale_gt 0).2.1 (translateX_scale_gt 0).2.2
  refine ⟨⟨?_, ?_⟩, rfl, ?_, ?_, ?_, ?_⟩
  · unfold localAt
    rw [find_of_mem_nodup _ hM fr hfr]
    exact hpose
  · rw [(resolveLoop_find eng sk _ hM (nodup_inner_decodeLoop pose names) b).1, arrayOf_getD]
    unfold localTrack
    exact List.mem_filterMap.mpr ⟨fr, hfr, hpose⟩
  · simp [resolveLoop, resolveFrame, resolveElem, twoBoneFrames, TMap.GetKeys, TMap.Find,
      ParentBoneName, twoBoneSkeleton, TMap.FindOrAdd, TMap.Add, BoneTracks.init, hL0, hL1, hL2]
  · have h : TMap.Find (resolveLoop eng twoBoneSkeleton twoBoneFrames).BonePosMap 1
        = some [(translateX 1 : FTransform K).Translation,
            (FTransform.Identity : FTransform K).Translation] := by
      simp [resolveLoop, resolveFrame, resolveElem, twoBoneFrames, TMap.GetKeys, TMap.Find,
        ParentBoneName, twoBoneSkeleton, TMap.FindOrAdd, TMap.Add, BoneTracks.init, hL0, hL1,
        hL2]
    exact h
  · have h : TMap.Find (resolveLoop eng twoBoneSkeleton twoBoneFrames).BoneRotMap 1
        = some [(translateX 1 : FTransform K).Rotation,
            (FTransform.Identity : FTransform K).Rotation] := by
      simp [resolveLoop, resolveFrame, resolveElem, twoBoneFrames, TMap.GetKeys, TMap.Find,
        ParentBoneName, twoBoneSkeleton, TMap.FindOrAdd, TMap.Add, BoneTracks.init, hL0, hL1,
        hL2]
    exact h
  · have h : TMap.Find (resolveLoop eng twoBoneSkeleton twoBoneFrames).BoneScaleMap 1
        = some [(translateX 1 : FTransform K).Scale3D,
            (FTransform.Identity : FTransform K).Scale3D] := by
      simp [resolveLoop, resolveFrame, resolveElem, twoBoneFrames, TMap.GetKeys, TMap.Find,
        ParentBoneName, twoBoneSkeleton, TMap.FindOrAdd, TMap.Add, BoneTracks.init, hL0, hL1,
        hL2]
    exact h

/-- C8, witness: the child in frame 1 of the two-bone scenario. -/
theorem local_key_is_child_times_parent_inverse_witness :
    ((1, [(0, translateX 1), (1, translateX 1)]) : Nat × TMap FName (FTransform ℚ))
        ∈ (decodeLoop (twoBonePose : Nat → FTransform ℚ)
            [0, 1, 0, 1, 0, 1]).FrameBoneTransformMap
    ∧ TMap.Find (resolveLoop sampleEngine twoBoneSkeleton twoBoneFrames).BoneKeyMap 1
        = some [translateX 1, FTransform.Identity] :=
  have hmem : ((1, [(0, translateX 1), (1, translateX 1)]) : Nat × TMap FName (FTransform ℚ))
      ∈ (decodeLoop (twoBonePose : Nat → FTransform ℚ)
          [0, 1, 0, 1, 0, 1]).FrameBoneTransformMap :=
    List.mem_cons_of_mem _ (List.mem_cons_self _ _)
  ⟨hmem,
   (local_key_is_child_times_parent_inverse sampleEngine twoBoneSkeleton twoBonePose
      [0, 1, 0, 1, 0, 1] 1 (1, [(0, translateX 1), (1, translateX 1)])
      (translateX 1) (translateX 1) hmem rfl rfl).2.2.1⟩

end LocalClaims

/-! ## Claim about the coordinate conversion -/

section ConversionClaims

variable {K : Type} [LinearOrderedField K]

/-- C10. The conversion from generator space to host space that the decoder applies to a
pose (rotation `q -> (q.x, q.z, q.y, -q.w) * R`, translation `t -> 100 * (t.x, t.z, t.y)`,
scale `s -> 100 * s`, with `R` the fixed rotation constant, a normalised quaternion) is
undone by the inverse formula: for every generator-space pose the inverse formula applied to
the converted pose gives the pose back exactly. The pose stored for a point is this
conversion of the decomposed matrix of the point, and depends on the data of that point
alone. -/
theorem conversion_is_invertible (R : FQuat K) (hR : R.SizeSquared = 1) (P : FTransform K) :
    hostToGenerator R (UnrealPoseTransform R P) = P
    ∧ (∀ (eng : EngineMath K) (WorldTransformData : List K) (PositionData : List (FVector K))
        (i : Nat),
        poseOfPoint eng WorldTransformData PositionData i
          = UnrealPoseTransform eng.MakeFromEuler90
              (eng.SetFromMatrix (M44Pose WorldTransformData PositionData i)))
    ∧ (∀ (eng : EngineMath K) (W1 W2 : List K) (P1 P2 : List (FVector K)) (i : Nat),
        (∀ k, k < 9 → W1.getD (9 * i + k) 0 = W2.getD (9 * i + k) 0) →
        P1.getD i ⟨0, 0, 0⟩ = P2.getD i ⟨0, 0, 0⟩ →
        poseOfPoint eng W1 P1 i = poseOfPoint eng W2 P2 i) := by
  refine ⟨hostToGenerator_unrealPoseTransform R hR P, fun _ _ _ _ => rfl, ?_⟩
  intro eng W1 W2 P1 P2 i hW hP
  unfold poseOfPoint M44Pose
  simp only [hP, hW 0 (by omega), hW 1 (by omega), hW 2 (by omega), hW 3 (by omega),
    hW 4 (by omega), hW 5 (by omega), hW 6 (by omega), hW 7 (by omega), hW 8 (by omega)]

/-- C10, witness: the engine constant for a rotation of 90 degrees about X, with
`sin 45 = cos 45 = sqrt 2 / 2`, over the reals. -/
theorem conversion_is_invertible_witness :
    (⟨-(Real.sqrt 2 / 2), 0, 0, Real.sqrt 2 / 2⟩ : FQuat ℝ).SizeSquared = 1
    ∧ hostToGenerator (⟨-(Real.sqrt 2 / 2), 0, 0, Real.sqrt 2 / 2⟩ : FQuat ℝ)
        (UnrealPoseTransform ⟨-(Real.sqrt 2 / 2), 0, 0, Real.sqrt 2 / 2⟩ (translateX 1))
        = translateX 1 :=
  have hR : (⟨-(Real.sqrt 2 / 2), 0, 0, Real.sqrt 2 / 2⟩ : FQuat ℝ).SizeSquared = 1 := by
    have h := Real.mul_self_sqrt (show (0 : ℝ) ≤ 2 by norm_num)
    simp only [FQuat.SizeSquared]
    linear_combination (1 / 2 : ℝ) * h
  ⟨hR, (conversion_is_invertible _ hR (translateX 1)).1⟩

end ConversionClaims

/-! ## Claims about the translation of a part -/

section PartClaims

variable {K : Type} [LinearOrderedField K]

/-- C4, counterexample. A part whose `unreal_skeleton` attribute exists with an empty
string array: the call returns false, and by then the animation asset has been created,
registered with the asset system and assigned as the output object of the part. -/
theorem empty_skeleton_override_leaves_asset :
    emptySkeletonOverridePart.bSkeletonExists = true
    ∧ emptySkeletonOverridePart.UnrealSkeletonData = []
    ∧ CreateAnimationFromMotionClip sampleEngine emptySkeletonOverridePart
        = (Outcome.returned false,
            [Effect.CreateObjectAndPackage, Effect.AssetCreated, Effect.SetOutputObject true]) :=
  ⟨rfl, rfl, rfl⟩

/-- C4 (amended). For every part whose `unreal_skeleton` attribute exists with an empty
string array, and for which the creation call gives a non-null object, the translation
returns false; when it returns, the animation asset has already been created, and, when it
is valid, registered with the asset system and assigned as the output object of the part,
and nothing else has been done: no skeleton is set and no track is committed. The creation
comes before every check. -/
theorem empty_skeleton_override_aborts (eng : EngineMath K) (part : MotionClipPart K)
    (hexists : part.bSkeletonExists = true) (hempty : part.UnrealSkeletonData = []) :
    (part.NewAnimation = CreatedObject.valid →
      CreateAnimationFromMotionClip eng part
        = (Outcome.returned false,
            [Effect.CreateObjectAndPackage, Effect.AssetCreated, Effect.SetOutputObject true]))
    ∧ (part.NewAnimation = CreatedObject.invalid →
      CreateAnimationFromMotionClip eng part
        = (Outcome.returned false,
            [Effect.CreateObjectAndPackage, Effect.SetOutputObject false])) := by
  constructor
  · intro hv
    simp [CreateAnimationFromMotionClip, hexists, hempty, hv, createEffects]
  · intro hv
    simp [CreateAnimationFromMotionClip, hexists, hempty, hv, createEffects]

/-- C4 (amended), witness: the part of the counterexample. -/
theorem empty_skeleton_override_aborts_witness :
    emptySkeletonOverridePart.bSkeletonExists = true
    ∧ emptySkeletonOverridePart.UnrealSkeletonData = []
    ∧ CreateAnimationFromMotionClip sampleEngine emptySkeletonOverridePart
        = (Outcome.returned false,
            [Effect.CreateObjectAndPackage, Effect.AssetCreated, Effect.SetOutputObject true]) :=
  ⟨rfl, rfl, (empty_skeleton_override_aborts sampleEngine emptySkeletonOverridePart rfl rfl).1 rfl⟩

/-- C5, the code at the failing input. A part with a name array of one point and no
`transform` attribute: the translation does not return false; it takes the address of
element 0 of the empty transform array (line 210) and the range check of the engine array
fails. The name array is the only fetched buffer the code tests for emptiness. -/
theorem missing_transform_is_not_a_false_return :
    missingTransformPart.BoneNameData = [0]
    ∧ missingTransformPart.WorldTransformData = []
    ∧ CreateAnimationFromMotionClip sampleEngine missingTransformPart
        = (Outcome.checkFailed,
            [Effect.CreateObjectAndPackage, Effect.AssetCreated, Effect.SetOutputObject true])
    ∧ (CreateAnimationFromMotionClip sampleEngine missingTransformPart).1
        ≠ Outcome.returned false := by
  refine ⟨rfl, rfl, rfl, ?_⟩
  decide

omit [LinearOrderedField K] in
theorem add_ne_nil {κ ν : Type} [DecidableEq κ] (m : TMap κ ν) (k : κ) (v : ν) :
    TMap.Add m k v ≠ [] := by
  cases m with
  | nil => simp [TMap.Add]
  | cons e rest =>
    obtain ⟨k2, v2⟩ := e
    unfold TMap.Add
    split <;> simp

omit [LinearOrderedField K] in
theorem frameBlock_ne_nil (pose : Nat → FTransform K) (blk : List (Nat × FName))
    (h : blk ≠ []) : frameBlock pose blk ≠ [] := by
  induction blk using List.reverseRecOn with
  | nil => exact absurd rfl h
  | append_singleton blk p _ =>
    rw [frameBlock_snoc]
    exact add_ne_nil _ _ _

omit [LinearOrderedField K] in
theorem framePoints_ne_nil (s : Nat) (hs : 0 < s) (pts : List (Nat × FName)) (f : Nat)
    (hf : f < (pts.length + s - 1) / s) : framePoints s pts f ≠ [] := by
  have hlt : f * s < pts.length := by
    rw [ceil_div_eq _ _ hs] at hf
    have h1 := Nat.div_add_mod pts.length s
    rw [Nat.mul_comm] at h1
    split at hf
    · have h2 : (f + 1) * s ≤ pts.length / s * s := Nat.mul_le_mul_right _ hf
      rw [Nat.add_mul, Nat.one_mul] at h2
      omega
    · have h2 : f * s ≤ pts.length / s * s := Nat.mul_le_mul_right _ (by omega)
      omega
  intro hnil
  have hlen := congrArg List.length hnil
  simp only [framePoints, List.length_take, List.length_drop, List.length_nil] at hlen
  omega

omit [LinearOrderedField K] in
theorem decodeLoop_frames_hold_pose (pose : Nat → FTransform K) (names : List FName) :
    ∀ fr ∈ (decodeLoop pose names).FrameBoneTransformMap, fr.2 ≠ [] := by
  intro fr hfr
  by_cases hne : names = []
  · subst hne
    simp [decodeLoop_nil, DecodeState.init] at hfr
  · rw [decodeLoop_eq pose names hne] at hfr
    simp only [framesOf, List.mem_map, List.mem_range] at hfr
    obtain ⟨f, hf, rfl⟩ := hfr
    exact frameBlock_ne_nil pose _
      (framePoints_ne_nil _ (boneNames_length_pos names hne) _ f hf)

omit [LinearOrderedField K] in
theorem setFrameRate_mem_commitTracks (set : TSet FName) (FrameIndex : Nat)
    (tr : BoneTracks K) (a c : Nat) :
    Effect.SetFrameRate a c ∈ commitTracks set FrameIndex tr ↔ a = 30 ∧ c = 1 := by
  unfold commitTracks
  simp only [List.mem_append, List.mem_cons, List.mem_flatMap, List.mem_singleton,
    List.not_mem_nil, or_false, false_or, reduceCtorEq, Effect.SetFrameRate.injEq]
  constructor
  · rintro (h | ⟨b, _, hmem⟩)
    · exact h
    · unfold commitBone at hmem
      split at hmem <;> simp at hmem
  · intro h
    exact Or.inl h

omit [LinearOrderedField K] in
theorem setNumberOfFrames_mem_commitTracks (set : TSet FName) (FrameIndex : Nat)
    (tr : BoneTracks K) (n : Int) :
    Effect.SetNumberOfFrames n ∈ commitTracks set FrameIndex tr
      ↔ n = (FrameIndex : Int) - 1 := by
  unfold commitTracks
  simp only [List.mem_append, List.mem_cons, List.mem_flatMap, List.mem_singleton,
    List.not_mem_nil, or_false, false_or, reduceCtorEq, Effect.SetNumberOfFrames.injEq]
  constructor
  · rintro (h | ⟨b, _, hmem⟩)
    · exact h
    · unfold commitBone at hmem
      split at hmem <;> simp at hmem
  · intro h
    exact Or.inl h

theorem effects_of_returned_true (eng : EngineMath K) (part : MotionClipPart K)
    (hrun : (CreateAnimationFromMotionClip eng part).1 = Outcome.returned true) :
    ∃ sk : FReferenceSkeleton,
      (CreateAnimationFromMotionClip eng part).2
        = createEffects part.NewAnimation
          ++ commitTracks (BoneNames part.BoneNameData)
              (decodeLoop (poseOfPoint eng part.WorldTransformData part.PositionData)
                part.BoneNameData).FrameIndex
              (resolveLoop eng sk
                (decodeLoop (poseOfPoint eng part.WorldTransformData part.PositionData)
                  part.BoneNameData).FrameBoneTransformMap) := by
  unfold CreateAnimationFromMotionClip at hrun ⊢
  by_cases h1 : part.NewAnimation = CreatedObject.null
  · rw [if_pos h1] at hrun
    simp at hrun
  rw [if_neg h1] at hrun ⊢
  by_cases h2 : (part.bSkeletonExists && decide (part.UnrealSkeletonData.length ≤ 0)) = true
  · rw [if_pos h2] at hrun
    simp at hrun
  rw [if_neg h2] at hrun ⊢
  cases hsk : part.LoadSkeleton
      (if part.bSkeletonExists = true then part.UnrealSkeletonData.headD ""
        else DefaultSkeletonPath) with
  | none =>
    simp only [hsk] at hrun
    simp at hrun
  | some sk =>
    simp only [hsk] at hrun ⊢
    by_cases h3 : part.BoneNameData.length ≤ 0
    · rw [if_pos h3] at hrun
      simp at hrun
    rw [if_neg h3] at hrun ⊢
    by_cases h4 : part.PositionData.length = 0 ∨ part.WorldTransformData.length = 0
        ∨ part.LocalTransformData.length = 0
    · rw [if_pos h4] at hrun
      simp at hrun
    rw [if_neg h4] at hrun ⊢
    by_cases h5 : ((List.range' (BoneNames part.BoneNameData).length
        (part.BoneNameData.length - (BoneNames part.BoneNameData).length)).all
        (readsInRange part.WorldTransformData part.PositionData)) = false
    · rw [if_pos h5] at hrun
      simp at hrun
    rw [if_neg h5] at hrun ⊢
    by_cases h6 : part.NewAnimation = CreatedObject.invalid
    · rw [if_pos h6] at hrun
      simp at hrun
    rw [if_neg h6]
    exact ⟨sk, rfl⟩

/-- C7. For every part that reaches the commit step (the call returns true) and whose
point count is a multiple of `BoneCount`, the translation sets the frame rate of the asset
to exactly 30/1 and to nothing else, whatever the attributes hold, and its number of frames
to the decoded frame count minus one; the decoded frame count is the number of frame
indices of the frame map, which are distinct and hold a pose each, and it is
`(point_count - BoneCount) / BoneCount`. -/
theorem commit_sets_rate_and_frame_count (eng : EngineMath K) (part : MotionClipPart K)
    (hrun : (CreateAnimationFromMotionClip eng part).1 = Outcome.returned true)
    (hdiv : part.BoneNameData.length % (BoneNames part.BoneNameData).length = 0) :
    let st := decodeLoop (poseOfPoint eng part.WorldTransformData part.PositionData)
      part.BoneNameData
    (∀ a c, Effect.SetFrameRate a c ∈ (CreateAnimationFromMotionClip eng part).2
        ↔ a = 30 ∧ c = 1)
    ∧ (∀ n, Effect.SetNumberOfFrames n ∈ (CreateAnimationFromMotionClip eng part).2
        ↔ n = ((TMap.Num st.FrameBoneTransformMap : Nat) : Int) - 1)
    ∧ TMap.Num st.FrameBoneTransformMap
        = (part.BoneNameData.length - (BoneNames part.BoneNameData).length)
            / (BoneNames part.BoneNameData).length
    ∧ (TMap.GetKeys st.FrameBoneTransformMap).Nodup
    ∧ (∀ fr ∈ st.FrameBoneTransformMap, fr.2 ≠ []) := by
  intro st
  obtain ⟨sk, hfx⟩ := effects_of_returned_true eng part hrun
  have hcount := num_decodeLoop_of_dvd
    (poseOfPoint eng part.WorldTransformData part.PositionData) part.BoneNameData hdiv
  have hindex : st.FrameIndex
      = (part.BoneNameData.length - (BoneNames part.BoneNameData).length)
          / (BoneNames part.BoneNameData).length := by
    by_cases hne : part.BoneNameData = []
    · show (decodeLoop _ part.BoneNameData).FrameIndex = _
      rw [hne]
      simp [decodeLoop_nil, DecodeState.init]
    · show (decodeLoop _ part.BoneNameData).FrameIndex = _
      rw [decodeLoop_eq _ _ hne]
  have hcreate : ∀ e : Effect K, e ∈ createEffects part.NewAnimation →
      e = Effect.CreateObjectAndPackage ∨ e = Effect.AssetCreated
        ∨ e = Effect.SetOutputObject true ∨ e = Effect.SetOutputObject false := by
    intro e he
    unfold createEffects at he
    split at he <;> simp at he <;> tauto
  refine ⟨?_, ?_, hcount, nodup_getKeys_decodeLoop _ _, decodeLoop_frames_hold_pose _ _⟩
  · intro a c
    rw [hfx, List.mem_append, setFrameRate_mem_commitTracks]
    constructor
    · rintro (h | h)
      · rcases hcreate _ h with h | h | h | h <;> simp at h
      · exact h
    · exact Or.inr
  · intro n
    rw [hfx, List.mem_append, setNumberOfFrames_mem_commitTracks]
    show _ ↔ n = ((TMap.Num (decodeLoop _ part.BoneNameData).FrameBoneTransformMap : Nat) : Int)
      - 1
    rw [hcount, ← hindex]
    constructor
    · rintro (h | h)
      · rcases hcreate _ h with h | h | h | h <;> simp at h
      · exact h
    · exact Or.inr

/-- C7, witness: a part of two bones with one frame after the leading block. -/
theorem commit_sets_rate_and_frame_count_witness :
    (CreateAnimationFromMotionClip sampleEngine twoBonePart).1 = Outcome.returned true
    ∧ twoBonePart.BoneNameData.length % (BoneNames twoBonePart.BoneNameData).length = 0
    ∧ Effect.SetFrameRate 30 1 ∈ (CreateAnimationFromMotionClip sampleEngine twoBonePart).2
    ∧ Effect.SetNumberOfFrames 0 ∈ (CreateAnimationFromMotionClip sampleEngine twoBonePart).2 :=
  have hrun : (CreateAnimationFromMotionClip sampleEngine twoBonePart).1
      = Outcome.returned true := by decide
  have hdiv : twoBonePart.BoneNameData.length
      % (BoneNames twoBonePart.BoneNameData).length = 0 := by decide
  ⟨hrun, hdiv,
   ((commit_sets_rate_and_frame_count sampleEngine twoBonePart hrun hdiv).1 30 1).mpr
     ⟨rfl, rfl⟩,
   ((commit_sets_rate_and_frame_count sampleEngine twoBonePart hrun hdiv).2.1 0).mpr
     (by decide)⟩

end PartClaims

/-! ## Claims about the probe, the counters and the reads of the decode loop -/

section ProbeClaims

/-- C11. `IsAnimationPart` returns true if and only if the session reports all three
attributes as existing for the part: `transform` with point owner, `localtransform` with
point owner and `time` with primitive owner; it returns false whenever one of them does not
exist; and the only queries it makes are the three `GetAttributeInfo` calls, so it reads no
attribute data. -/
theorem isAnimationPart_iff_three_exist (session : HapiSession) (GeoId PartId : Int) :
    ((IsAnimationPart session GeoId PartId).1 = true ↔
        (session.GetAttributeInfo GeoId PartId "transform"
            HAPI_AttributeOwner.HAPI_ATTROWNER_POINT).exists_ = true
        ∧ (session.GetAttributeInfo GeoId PartId "localtransform"
            HAPI_AttributeOwner.HAPI_ATTROWNER_POINT).exists_ = true
        ∧ (session.GetAttributeInfo GeoId PartId "time"
            HAPI_AttributeOwner.HAPI_ATTROWNER_PRIM).exists_ = true)
    ∧ ((session.GetAttributeInfo GeoId PartId "transform"
            HAPI_AttributeOwner.HAPI_ATTROWNER_POINT).exists_ = false
        ∨ (session.GetAttributeInfo GeoId PartId "localtransform"
            HAPI_AttributeOwner.HAPI_ATTROWNER_POINT).exists_ = false
        ∨ (session.GetAttributeInfo GeoId PartId "time"
            HAPI_AttributeOwner.HAPI_ATTROWNER_PRIM).exists_ = false →
        (IsAnimationPart session GeoId PartId).1 = false)
    ∧ (IsAnimationPart session GeoId PartId).2
        = [SessionCall.GetAttributeInfo GeoId PartId "transform"
            HAPI_AttributeOwner.HAPI_ATTROWNER_POINT,
          SessionCall.GetAttributeInfo GeoId PartId "localtransform"
            HAPI_AttributeOwner.HAPI_ATTROWNER_POINT,
          SessionCall.GetAttributeInfo GeoId PartId "time"
            HAPI_AttributeOwner.HAPI_ATTROWNER_PRIM]
    ∧ (∀ c ∈ (IsAnimationPart session GeoId PartId).2,
        ∃ name owner, c = SessionCall.GetAttributeInfo GeoId PartId name owner) := by
  refine ⟨?_, ?_, rfl, ?_⟩
  · simp only [IsAnimationPart, Bool.and_eq_true, and_assoc]
  · simp only [IsAnimationPart]
    rintro (h | h | h) <;> simp [h]
  · intro c hc
    simp only [IsAnimationPart, List.mem_cons, List.mem_singleton, List.not_mem_nil,
      or_false] at hc
    rcases hc with h | h | h <;> exact ⟨_, _, h⟩

/-- C11, evaluation: a part with the three attributes is an animation part, and a part
lacking `time` on primitives is not. -/
theorem isAnimationPart_examples :
    (IsAnimationPart (sessionWith
        [("transform", HAPI_AttributeOwner.HAPI_ATTROWNER_POINT),
         ("localtransform", HAPI_AttributeOwner.HAPI_ATTROWNER_POINT),
         ("time", HAPI_AttributeOwner.HAPI_ATTROWNER_PRIM)]) 1 0).1 = true
    ∧ (IsAnimationPart (sessionWith
        [("transform", HAPI_AttributeOwner.HAPI_ATTROWNER_POINT),
         ("localtransform", HAPI_AttributeOwner.HAPI_ATTROWNER_POINT),
         ("time", HAPI_AttributeOwner.HAPI_ATTROWNER_POINT)]) 1 0).1 = false := by
  decide

end ProbeClaims

section CounterClaims

variable {K : Type}

theorem decodePrefix_eq (pose : Nat → FTransform K) (names : List FName)
    (hb : 0 < (BoneNames names).length) (j : Nat)
    (hj : j ≤ names.length - (BoneNames names).length) :
    (decodePrefix pose names j).FrameIndex = j / (BoneNames names).length
    ∧ (decodePrefix pose names j).BoneCounter = j % (BoneNames names).length := by
  have hlen : ((loopPoints names (BoneNames names).length).take j).length = j := by
    rw [List.length_take, length_loopPoints]
    omega
  unfold decodePrefix
  rw [decode_foldl_eq _ hb, hlen]
  exact ⟨rfl, rfl⟩

theorem decodePrefix_of_ge (pose : Nat → FTransform K) (names : List FName) (j : Nat)
    (hj : names.length - (BoneNames names).length ≤ j) :
    decodePrefix pose names j = decodeLoop pose names := by
  unfold decodePrefix decodeLoop decodeFrom
  rw [List.take_of_length_le]
  rw [length_loopPoints]
  exact hj

/-- C12. The wrap-counter loop equals the arithmetic row-major assignment. For every name
array of `N` points with `BoneCount >= 1`, divisibility not assumed, and every point index
`i` with `BoneCount <= i < N`: at the moment the pose of point `i` is stored the counters
are `FrameIndex = (i - BoneCount) div BoneCount` and `BoneCounter = (i - BoneCount) mod
BoneCount`, and this is the frame the loop logs for the point; `BoneCounter < BoneCount`
holds after any number of iterations; and after the loop `FrameIndex = (N - BoneCount) div
BoneCount`. -/
theorem counters_equal_row_major (pose : Nat → FTransform K) (names : List FName)
    (hBC : 1 ≤ (BoneNames names).length) :
    (∀ i (_ : (BoneNames names).length ≤ i) (hhi : i < names.length),
        ((decodePrefix pose names (i - (BoneNames names).length)).FrameIndex,
          (decodePrefix pose names (i - (BoneNames names).length)).BoneCounter)
          = rowMajor (BoneNames names).length i
        ∧ (decodeLoop pose names).Log[i - (BoneNames names).length]?
          = some ((rowMajor (BoneNames names).length i).1, names[i],
              (rowMajor (BoneNames names).length i).2))
    ∧ (∀ j, (decodePrefix pose names j).BoneCounter < (BoneNames names).length)
    ∧ decodePrefix pose names (names.length - (BoneNames names).length)
        = decodeLoop pose names
    ∧ (decodeLoop pose names).FrameIndex
        = (names.length - (BoneNames names).length) / (BoneNames names).length := by
  have hb : 0 < (BoneNames names).length := hBC
  have hne : names ≠ [] := by
    intro h
    rw [h] at hb
    simp [BoneNames] at hb
  refine ⟨?_, ?_, decodePrefix_of_ge pose names _ (Nat.le_refl _), ?_⟩
  · intro i hlo hhi
    obtain ⟨hf, hc⟩ := decodePrefix_eq pose names hb (i - (BoneNames names).length)
      (by omega)
    refine ⟨?_, ?_⟩
    · rw [hf, hc]
      rfl
    · have hi : (BoneNames names).length + (i - (BoneNames names).length) = i := by omega
      have hpt : (loopPoints names (BoneNames names).length)[i - (BoneNames names).length]?
          = some (i, names[i]) := by
        rw [loopPoints_getElem?, hi, List.getElem?_eq_getElem hhi]
        rfl
      rw [decodeLoop_eq pose names hne]
      simp only [List.getElem?_map, List.enum, List.getElem?_enumFrom, hpt, Option.map_some',
        Nat.zero_add, rowMajor]
  · intro j
    by_cases hj : j ≤ names.length - (BoneNames names).length
    · rw [(decodePrefix_eq pose names hb j hj).2]
      exact Nat.mod_lt _ hb
    · rw [decodePrefix_of_ge pose names j (by omega), decodeLoop_eq pose names hne]
      exact Nat.mod_lt _ hb
  · rw [decodeLoop_eq pose names hne]

/-- C12, witness: five points of two bones, the point count not a multiple of the
stride. -/
theorem counters_equal_row_major_witness :
    1 ≤ (BoneNames [0, 1, 0, 1, 0]).length
    ∧ (decodeLoop (fun _ => (FTransform.Identity : FTransform ℚ)) [0, 1, 0, 1, 0]).FrameIndex
        = (([0, 1, 0, 1, 0] : List FName).length - (BoneNames [0, 1, 0, 1, 0]).length)
            / (BoneNames [0, 1, 0, 1, 0]).length :=
  ⟨by decide,
   (counters_equal_row_major (fun _ => (FTransform.Identity : FTransform ℚ)) [0, 1, 0, 1, 0]
      (by decide)).2.2.2⟩

end CounterClaims

section ReadClaims

variable {K : Type}

/-- C13. If the name array has `N >= 1` entries, the position buffer `N` entries and the
transform buffer `9 * N` floats, then `1 <= BoneCount <= N`, every read of the decode loop
(the name, the position and the nine floats of every point `i` with `BoneCount <= i < N`) is
in bounds, so the range checks of the loop all pass, and the loop makes exactly
`N - BoneCount` iterations, whether or not `N` is a multiple of `BoneCount`. -/
theorem decode_reads_in_bounds (pose : Nat → FTransform K) (BoneNameData : List FName)
    (PositionData : List (FVector K)) (WorldTransformData : List K)
    (hN : 1 ≤ BoneNameData.length) (hP : PositionData.length = BoneNameData.length)
    (hW : WorldTransformData.length = 9 * BoneNameData.length) :
    1 ≤ (BoneNames BoneNameData).length
    ∧ (BoneNames BoneNameData).length ≤ BoneNameData.length
    ∧ (∀ i, (BoneNames BoneNameData).length ≤ i → i < BoneNameData.length →
        i < BoneNameData.length ∧ i < PositionData.length
        ∧ (∀ k, k < 9 → 9 * i + k < WorldTransformData.length)
        ∧ readsInRange WorldTransformData PositionData i = true)
    ∧ (List.range' (BoneNames BoneNameData).length
          (BoneNameData.length - (BoneNames BoneNameData).length)).all
        (readsInRange WorldTransformData PositionData) = true
    ∧ (loopPoints BoneNameData (BoneNames BoneNameData).length).length
        = BoneNameData.length - (BoneNames BoneNameData).length
    ∧ (decodeLoop pose BoneNameData).Log.length
        = BoneNameData.length - (BoneNames BoneNameData).length := by
  have hne : BoneNameData ≠ [] := by
    intro h
    rw [h] at hN
    simp at hN
  have hread : ∀ i, i < BoneNameData.length →
      readsInRange WorldTransformData PositionData i = true := by
    intro i hi
    unfold readsInRange
    simp only [Bool.and_eq_true, decide_eq_true_eq]
    omega
  refine ⟨boneNames_length_pos _ hne, boneNames_length_le _, ?_, ?_, length_loopPoints _ _, ?_⟩
  · intro i _ hi
    exact ⟨hi, by omega, fun k hk => by omega, hread i hi⟩
  · rw [List.all_eq_true]
    intro i hi
    rw [List.mem_range'_1] at hi
    exact hread i (by omega)
  · rw [decodeLoop_eq pose BoneNameData hne]
    simp [List.enum_length, length_loopPoints]

/-- C13, witness: five points of two bones with buffers of the matching sizes. -/
theorem decode_reads_in_bounds_witness :
    1 ≤ ([0, 1, 0, 1, 0] : List FName).length
    ∧ (List.replicate 5 (⟨0, 0, 0⟩ : FVector ℚ)).length = ([0, 1, 0, 1, 0] : List FName).length
    ∧ (List.replicate 45 (0 : ℚ)).length = 9 * ([0, 1, 0, 1, 0] : List FName).length
    ∧ (decodeLoop (fun _ => (FTransform.Identity : FTransform ℚ)) [0, 1, 0, 1, 0]).Log.length
        = ([0, 1, 0, 1, 0] : List FName).length - (BoneNames [0, 1, 0, 1, 0]).length :=
  ⟨by decide, by decide, by decide,
   (decode_reads_in_bounds (fun _ => (FTransform.Identity : FTransform ℚ)) [0, 1, 0, 1, 0]
      (List.replicate 5 ⟨0, 0, 0⟩) (List.replicate 45 0) (by decide) (by decide)
      (by decide)).2.2.2.2.2⟩

end ReadClaims

/-! ## Claim about the folder path of the dialog -/

section DialogClaims

mutual
theorem updateNode_eq_foldl : ∀ (p : FHoudiniNodeInfoPtr) (OutPath : String),
    UpdateNodePathFromTreeView p OutPath = (importedPaths p).foldl appendPath OutPath
  | none, OutPath => by simp [UpdateNodePathFromTreeView, importedPaths]
  | some (FHoudiniNodeInfo.mk bImportNode NodeHierarchyPath Childrens), OutPath => by
    cases bImportNode with
    | true => simp [UpdateNodePathFromTreeView, importedPaths, appendPath]
    | false =>
      simp only [UpdateNodePathFromTreeView, importedPaths, Bool.false_eq_true, if_false]
      exact updateNodePaths_eq_foldl Childrens OutPath
theorem updateNodePaths_eq_foldl : ∀ (l : List FHoudiniNodeInfoPtr) (OutPath : String),
    updateNodePaths l OutPath = (importedPathsList l).foldl appendPath OutPath
  | [], OutPath => by simp [updateNodePaths, importedPathsList]
  | p :: rest, OutPath => by
    simp only [updateNodePaths, importedPathsList, List.foldl_append]
    rw [updateNode_eq_foldl p OutPath, updateNodePaths_eq_foldl rest]
end

mutual
theorem listed_of_preorderFlags : ∀ (anc : Bool) (p : FHoudiniNodeInfoPtr),
    ((preorderFlags anc p).filter (fun x => x.2.1 && !x.1)).map (fun x => x.2.2)
      = if anc then [] else importedPaths p
  | anc, none => by cases anc <;> simp [preorderFlags, importedPaths]
  | anc, some (FHoudiniNodeInfo.mk bImportNode NodeHierarchyPath Childrens) => by
    have ih := listed_of_preorderFlagsList (anc || bImportNode) Childrens
    cases anc <;> cases bImportNode <;>
      simp_all [preorderFlags, importedPaths, List.filter_cons]
theorem listed_of_preorderFlagsList : ∀ (anc : Bool) (l : List FHoudiniNodeInfoPtr),
    ((preorderFlagsList anc l).filter (fun x => x.2.1 && !x.1)).map (fun x => x.2.2)
      = if anc then [] else importedPathsList l
  | anc, [] => by cases anc <;> simp [preorderFlagsList, importedPathsList]
  | anc, p :: rest => by
    have ih1 := listed_of_preorderFlags anc p
    have ih2 := listed_of_preorderFlagsList anc rest
    simp only [preorderFlagsList, importedPathsList, List.filter_append, List.map_append,
      ih1, ih2]
    cases anc <;> simp
end

theorem listedPaths_eq (roots : List FHoudiniNodeInfoPtr) :
    listedPaths roots = importedPathsList roots := by
  unfold listedPaths
  rw [listed_of_preorderFlagsList false roots]
  rfl

theorem mem_importedPathsList_nonempty (roots : List FHoudiniNodeInfoPtr)
    (hpaths : ∀ x ∈ preorderFlagsList false roots, x.2.2 ≠ "") :
    ∀ p ∈ importedPathsList roots, p ≠ "" := by
  intro p hp
  rw [← listedPaths_eq] at hp
  unfold listedPaths at hp
  simp only [List.mem_map, List.mem_filter] at hp
  obtain ⟨x, ⟨hx, _⟩, rfl⟩ := hp
  exact hpaths x hx

theorem appendPath_empty (p : String) : appendPath "" p = p := by
  unfold appendPath
  have h : ("" : String).isEmpty = true := (String.isEmpty_iff "").mpr rfl
  simp [h]

theorem appendPath_of_ne (acc p : String) (h : acc ≠ "") :
    appendPath acc p = acc ++ ";" ++ p := by
  unfold appendPath
  have hne : acc.isEmpty = false := by
    cases hq : acc.isEmpty
    · rfl
    · exact absurd ((String.isEmpty_iff acc).mp hq) h
  simp [hne]

theorem append_ne_empty_left (a b : String) (h : a ≠ "") : a ++ b ≠ "" := by
  intro hab
  apply h
  have hd := congrArg String.data hab
  rw [String.data_append] at hd
  exact String.ext_iff.mpr (List.append_eq_nil.mp hd).1

theorem foldl_appendPath_of_ne (l : List String) (acc : String) (hacc : acc ≠ "") :
    l.foldl appendPath acc = String.intercalate.go acc ";" l := by
  induction l generalizing acc with
  | nil => rfl
  | cons p rest ih =>
    rw [List.foldl_cons, appendPath_of_ne acc p hacc,
      ih _ (append_ne_empty_left _ _ (append_ne_empty_left _ _ hacc))]
    rfl

/-- The appends of the path builder over a list of non-empty paths, from the empty string,
give the paths joined with the separator. -/
theorem foldl_appendPath_empty (l : List String) (hl : ∀ p ∈ l, p ≠ "") :
    l.foldl appendPath "" = String.intercalate ";" l := by
  cases l with
  | nil => rfl
  | cons p rest =>
    rw [List.foldl_cons, appendPath_empty,
      foldl_appendPath_of_ne rest p (hl p (List.mem_cons_self _ _))]
    rfl

theorem go_append (acc s : String) (l1 l2 : List String) :
    String.intercalate.go acc s (l1 ++ l2)
      = String.intercalate.go (String.intercalate.go acc s l1) s l2 := by
  induction l1 generalizing acc with
  | nil => rfl
  | cons a rest ih => exact ih (acc ++ s ++ a)

theorem go_data (acc s : String) (l : List String) :
    (String.intercalate.go acc s l).data
      = acc.data ++ l.flatMap (fun a => s.data ++ a.data) := by
  induction l generalizing acc with
  | nil => simp [String.intercalate.go]
  | cons a rest ih =>
    have h : String.intercalate.go acc s (a :: rest)
        = String.intercalate.go (acc ++ s ++ a) s rest := rfl
    rw [h, ih, String.data_append, String.data_append, List.flatMap_cons]
    simp [List.append_assoc]

theorem intercalate_data_cons (p : String) (rest : List String) :
    (String.intercalate ";" (p :: rest)).data
      = p.data ++ rest.flatMap (fun a => ';' :: a.data) := by
  have h : String.intercalate ";" (p :: rest) = String.intercalate.go p ";" rest := rfl
  rw [h, go_data]
  rfl

theorem length_flatMap_sep (rest : List String) :
    (rest.flatMap (fun a => ';' :: a.data)).length
      = (rest.map String.length).sum + rest.length := by
  induction rest with
  | nil => rfl
  | cons a r ih =>
    simp only [List.flatMap_cons, List.length_append, List.length_cons, ih, List.map_cons,
      List.sum_cons, String.length]
    omega

theorem count_flatMap_sep (rest : List String) (h : ∀ p ∈ rest, ';' ∉ p.data) :
    (rest.flatMap (fun a => ';' :: a.data)).count ';' = rest.length := by
  induction rest with
  | nil => rfl
  | cons a r ih =>
    have ha : a.data.count ';' = 0 := List.count_eq_zero.mpr (h a (List.mem_cons_self _ _))
    simp only [List.flatMap_cons, List.count_append, List.count_cons_self, ha,
      ih (fun p hp => h p (List.mem_cons_of_mem _ hp)), List.length_cons]
    omega

theorem length_intercalate (l : List String) :
    (String.intercalate ";" l).length = (l.map String.length).sum + (l.length - 1) := by
  cases l with
  | nil => rfl
  | cons p rest =>
    show (String.intercalate ";" (p :: rest)).data.length = _
    rw [intercalate_data_cons, List.length_append, length_flatMap_sep]
    simp only [List.map_cons, List.sum_cons, List.length_cons, String.length]
    omega

theorem intercalate_starts (p : String) (rest : List String) :
    ∃ tail : String, String.intercalate ";" (p :: rest) = p ++ tail := by
  refine ⟨⟨rest.flatMap (fun a => ';' :: a.data)⟩, ?_⟩
  rw [String.ext_iff, intercalate_data_cons, String.data_append]

theorem intercalate_ends (init : List String) (p : String) :
    ∃ front : String, String.intercalate ";" (init ++ [p]) = front ++ p := by
  cases init with
  | nil => exact ⟨"", (String.empty_append p).symm⟩
  | cons q r =>
    refine ⟨String.intercalate.go q ";" r ++ ";", ?_⟩
    have h : String.intercalate ";" (q :: r ++ [p]) = String.intercalate.go q ";" (r ++ [p]) :=
      rfl
    rw [h, go_append]
    rfl

theorem data_ne_nil_of_ne (p : String) (h : p ≠ "") : p.data ≠ [] := by
  intro hd
  exact h (String.ext_iff.mpr hd)

theorem intercalate_chars (l : List String) (hne : ∀ p ∈ l, p ≠ "")
    (hsep : ∀ p ∈ l, ';' ∉ p.data) :
    (String.intercalate ";" l).data.count ';' = l.length - 1
    ∧ (String.intercalate ";" l).data.head? ≠ some ';'
    ∧ (String.intercalate ";" l).data.getLast? ≠ some ';' := by
  refine ⟨?_, ?_, ?_⟩
  · cases l with
    | nil => rfl
    | cons p rest =>
      rw [intercalate_data_cons, List.count_append,
        List.count_eq_zero.mpr (hsep p (List.mem_cons_self _ _)),
        count_flatMap_sep rest (fun q hq => hsep q (List.mem_cons_of_mem _ hq))]
      simp
  · cases l with
    | nil => simp [String.intercalate]
    | cons p rest =>
      intro hhead
      rw [intercalate_data_cons] at hhead
      have hp := data_ne_nil_of_ne p (hne p (List.mem_cons_self _ _))
      cases hd : p.data with
      | nil => exact hp hd
      | cons c cs =>
        rw [hd] at hhead
        simp only [List.cons_append, List.head?_cons, Option.some.injEq] at hhead
        apply hsep p (List.mem_cons_self _ _)
        rw [hd, hhead]
        exact List.mem_cons_self _ _
  · rcases List.eq_nil_or_concat l with hl | ⟨init, p, hl⟩
    · subst hl
      simp [String.intercalate]
    · rw [List.concat_eq_append] at hl
      subst hl
      intro hlast
      obtain ⟨front, hfront⟩ := intercalate_ends init p
      rw [hfront, String.data_append] at hlast
      have hmem : p ∈ init ++ [p] := by simp
      have hp := data_ne_nil_of_ne p (hne p hmem)
      rw [List.getLast?_append_of_ne_nil _ hp] at hlast
      exact hsep p hmem (List.mem_of_getLast?_eq_some hlast)

/-- C14. For every node forest in which all `NodeHierarchyPath` values are non-empty, the
folder path that `OnButtonClick(Ok)` builds with `UpdateNodePathFromTreeView` from an empty
string is the list, joined with `;` and in depth-first pre-order over `RootNodesInfos`, of
the paths of exactly the nodes that are flagged `bImportNode` and have no flagged ancestor.
The path starts with the first listed path and ends with the last one, so no separator leads
or trails; its length is the total length of the listed paths plus one separator per listed
node but the first; it is empty when no node is listed; and when no listed path holds a `;`
itself, the path has exactly that many `;` characters and none at either end. -/
theorem folder_path_is_joined_import_list (dlg : SSelectHoudiniPathDialog)
    (hpaths : ∀ x ∈ preorderFlagsList false dlg.RootNodesInfos, x.2.2 ≠ "") :
    (OnButtonClick dlg EAppReturnType.Ok).FolderPath
        = String.intercalate ";" (listedPaths dlg.RootNodesInfos)
    ∧ (OnButtonClick dlg EAppReturnType.Ok).FolderPath.length
        = ((listedPaths dlg.RootNodesInfos).map String.length).sum
          + ((listedPaths dlg.RootNodesInfos).length - 1)
    ∧ (∀ p rest, listedPaths dlg.RootNodesInfos = p :: rest →
        ∃ tail : String, (OnButtonClick dlg EAppReturnType.Ok).FolderPath = p ++ tail)
    ∧ (∀ init p, listedPaths dlg.RootNodesInfos = init ++ [p] →
        ∃ front : String, (OnButtonClick dlg EAppReturnType.Ok).FolderPath = front ++ p)
    ∧ (listedPaths dlg.RootNodesInfos = [] →
        (OnButtonClick dlg EAppReturnType.Ok).FolderPath = "")
    ∧ ((∀ p ∈ listedPaths dlg.RootNodesInfos, ';' ∉ p.data) →
        (OnButtonClick dlg EAppReturnType.Ok).FolderPath.data.count ';'
          = (listedPaths dlg.RootNodesInfos).length - 1
        ∧ (OnButtonClick dlg EAppReturnType.Ok).FolderPath.data.head? ≠ some ';'
        ∧ (OnButtonClick dlg EAppReturnType.Ok).FolderPath.data.getLast? ≠ some ';') := by
  have hne : ∀ p ∈ listedPaths dlg.RootNodesInfos, p ≠ "" := by
    rw [listedPaths_eq]
    exact mem_importedPathsList_nonempty _ hpaths
  have hF : (OnButtonClick dlg EAppReturnType.Ok).FolderPath
      = String.intercalate ";" (listedPaths dlg.RootNodesInfos) := by
    unfold OnButtonClick
    simp only [if_true]
    rw [updateNodePaths_eq_foldl, ← listedPaths_eq]
    exact foldl_appendPath_empty _ hne
  rw [hF]
  refine ⟨rfl, length_intercalate _, ?_, ?_, ?_, ?_⟩
  · intro p rest h
    rw [h]
    exact intercalate_starts p rest
  · intro init p h
    rw [h]
    exact intercalate_ends init p
  · intro h
    rw [h]
    rfl
  · intro hsep
    exact intercalate_chars _ hne hsep

/-- C14, witness: the forest with an unflagged root over two flagged children, one of them
with a flagged child of its own, and a flagged second root. -/
theorem folder_path_is_joined_import_list_witness :
    (∀ x ∈ preorderFlagsList false sampleForest, x.2.2 ≠ "")
    ∧ listedPaths sampleForest = ["/obj/a/b", "/obj/a/c", "/obj/e"]
    ∧ (OnButtonClick ⟨EAppReturnType.Cancel, "/Game", sampleForest, false⟩
        EAppReturnType.Ok).FolderPath = "/obj/a/b;/obj/a/c;/obj/e" :=
  have hpaths : ∀ x ∈ preorderFlagsList false sampleForest, x.2.2 ≠ "" := by
    simp [sampleForest, preorderFlagsList, preorderFlags]
  have hlisted : listedPaths sampleForest = ["/obj/a/b", "/obj/a/c", "/obj/e"] := by
    simp [listedPaths, sampleForest, preorderFlagsList, preorderFlags, List.filter_cons]
  ⟨hpaths, hlisted, by
    rw [(folder_path_is_joined_import_list ⟨EAppReturnType.Cancel, "/Game", sampleForest, false⟩
      hpaths).1, hlisted]
    decide⟩

end DialogClaims

end Houdini
